import Mathlib

/-!
Verification of the page-replacement simulator
(src/20213002624/PageReplacementAlgorithm.py).

The Python module implements six page-replacement policies (FIFO, LRU, OPT,
LFU, SimpleCLOCK, EnhancedCLOCK) as classes sharing counters
(page_faults, page_hits, replacements) and a resident list (memory), a
per-class simulate method that replays a reference trace and writes one
memory snapshot per step to a file, and an aggregator
test_page_replacement_algorithms.

This file is a shallow embedding of that code.  Python dicts are modelled
as insertion-ordered association lists with unique keys, Python lists as
Lean lists, and Python exceptions as an error outcome carrying the object
state at the time of the raise (the caller keeps the mutated object after
an exception propagates).  All page numbers and counters are Python ints
with no overflow, embedded as Nat.
-/

set_option maxHeartbeats 1000000

/-! ### Python primitives -/

/-- Python list.remove(x): removes the first occurrence of x, or raises
ValueError when x is absent (none). -/
def pyRemove (l : List Nat) (x : Nat) : Option (List Nat) :=
  if x ∈ l then some (l.erase x) else none

/-- Python list.index(x): first index of x, or raises ValueError when x is
absent (none). -/
def pyIndex (l : List Nat) (x : Nat) : Option Nat :=
  if x ∈ l then some (l.indexOf x) else none

/-- Keys of a Python dict, in insertion order. -/
def dictKeys (d : List (Nat × Nat)) : List Nat := d.map Prod.fst

/-- Values of a Python dict, in insertion order of their keys. -/
def dictValues (d : List (Nat × Nat)) : List Nat := d.map Prod.snd

/-- Python d[k] read: the binding of the key, none when absent (KeyError). -/
def dictGet : List (Nat × Nat) → Nat → Option Nat
  | [], _ => none
  | kv :: rest, k => if kv.1 = k then some kv.2 else dictGet rest k

/-- Python d[k] = v: update the binding in place when the key is present,
append a new binding otherwise. -/
def dictSet : List (Nat × Nat) → Nat → Nat → List (Nat × Nat)
  | [], k, v => [(k, v)]
  | kv :: rest, k, v => if kv.1 = k then (k, v) :: rest else kv :: dictSet rest k v

/-- Python del d[k]: drop the binding of the key.  Every del in the source
is applied to a key that is present, where this agrees with Python. -/
def dictDel (d : List (Nat × Nat)) (k : Nat) : List (Nat × Nat) :=
  d.filter (fun kv => kv.1 != k)

/-- Python min over a list of values; none models the ValueError raised on
an empty sequence. -/
def listMin : List Nat → Option Nat
  | [] => none
  | x :: xs =>
    match listMin xs with
    | none => some x
    | some m => some (min x m)

/-- Helper for dictMinKeyByVal: fold keeping the first binding with the
least value seen so far. -/
def dictMinGo (best : Nat × Nat) : List (Nat × Nat) → Nat
  | [] => best.1
  | kv :: rest => if kv.2 < best.2 then dictMinGo kv rest else dictMinGo best rest

/-- Python min(d, key=d.get): the first key, in insertion order, whose value
is least; none models the ValueError raised on an empty dict. -/
def dictMinKeyByVal : List (Nat × Nat) → Option Nat
  | [] => none
  | kv :: rest => some (dictMinGo kv rest)

/-- Number of true entries of a use-bit table.  Used as the fuel bound of
the clock sweeps: each continuing sweep iteration clears one true bit. -/
def countTrue : List Bool → Nat
  | [] => 0
  | b :: rest => (if b then 1 else 0) + countTrue rest

/-! ### Lemmas about the Python primitives -/

theorem pyRemove_of_mem {l : List Nat} {x : Nat} (h : x ∈ l) :
    pyRemove l x = some (l.erase x) := by
  simp [pyRemove, h]

theorem dictKeys_nil : dictKeys [] = [] := rfl

theorem dictKeys_cons (kv : Nat × Nat) (rest : List (Nat × Nat)) :
    dictKeys (kv :: rest) = kv.1 :: dictKeys rest := rfl

theorem dictGet_mem_keys : ∀ {d : List (Nat × Nat)} {k v : Nat},
    dictGet d k = some v → k ∈ dictKeys d := by
  intro d
  induction d with
  | nil => intro k v h; simp [dictGet] at h
  | cons kv rest ih =>
    intro k v h
    simp only [dictGet] at h
    rw [dictKeys_cons, List.mem_cons]
    by_cases hk : kv.1 = k
    · left; exact hk.symm
    · simp only [if_neg hk] at h
      right
      exact ih h

theorem dictGet_of_mem_keys : ∀ {d : List (Nat × Nat)} {k : Nat},
    k ∈ dictKeys d → ∃ v, dictGet d k = some v := by
  intro d
  induction d with
  | nil => intro k h; simp [dictKeys_nil] at h
  | cons kv rest ih =>
    intro k h
    by_cases hk : kv.1 = k
    · exact ⟨kv.2, by simp [dictGet, hk]⟩
    · rw [dictKeys_cons, List.mem_cons] at h
      rcases h with h | h
      · exact absurd h.symm hk
      · obtain ⟨v, hv⟩ := ih h
        exact ⟨v, by simp [dictGet, hk, hv]⟩

theorem dictKeys_set_of_mem : ∀ {d : List (Nat × Nat)} {k : Nat} (v : Nat),
    k ∈ dictKeys d → dictKeys (dictSet d k v) = dictKeys d := by
  intro d
  induction d with
  | nil => intro k v h; simp [dictKeys_nil] at h
  | cons kv rest ih =>
    intro k v h
    by_cases hk : kv.1 = k
    · simp [dictSet, hk, dictKeys_cons]
    · rw [dictKeys_cons, List.mem_cons] at h
      rcases h with h | h
      · exact absurd h.symm hk
      · simp only [dictSet, if_neg hk]
        rw [dictKeys_cons, dictKeys_cons, ih v h]

theorem dictKeys_set_of_not_mem : ∀ {d : List (Nat × Nat)} {k : Nat} (v : Nat),
    k ∉ dictKeys d → dictKeys (dictSet d k v) = dictKeys d ++ [k] := by
  intro d
  induction d with
  | nil => intro k v _; simp [dictSet, dictKeys_cons, dictKeys_nil]
  | cons kv rest ih =>
    intro k v h
    rw [dictKeys_cons, List.mem_cons] at h
    push_neg at h
    have hk : kv.1 ≠ k := fun he => h.1 he.symm
    simp only [dictSet, if_neg hk]
    rw [dictKeys_cons, dictKeys_cons, ih v h.2]
    rfl

theorem dictKeys_del : ∀ (d : List (Nat × Nat)) (k : Nat),
    dictKeys (dictDel d k) = (dictKeys d).filter (fun x => x != k) := by
  intro d k
  induction d with
  | nil => rfl
  | cons kv rest ih =>
    by_cases hk : kv.1 = k
    · rw [dictKeys_cons]
      simp only [dictDel, List.filter, show (kv.1 != k) = false by simp [hk]]
      simpa [dictDel] using ih
    · rw [dictKeys_cons]
      simp only [dictDel, List.filter, show (kv.1 != k) = true by simp [hk]]
      rw [dictKeys_cons]
      simpa [dictDel] using congrArg (List.cons kv.1) ih

theorem dictMinGo_mem : ∀ (rest : List (Nat × Nat)) (best : Nat × Nat),
    dictMinGo best rest = best.1 ∨ dictMinGo best rest ∈ dictKeys rest := by
  intro rest
  induction rest with
  | nil => intro best; left; rfl
  | cons kv r ih =>
    intro best
    simp only [dictMinGo]
    rw [dictKeys_cons]
    by_cases h : kv.2 < best.2
    · rw [if_pos h]
      rcases ih kv with h1 | h1
      · right; rw [List.mem_cons]; left; exact h1
      · right; rw [List.mem_cons]; right; exact h1
    · rw [if_neg h]
      rcases ih best with h1 | h1
      · left; exact h1
      · right; rw [List.mem_cons]; right; exact h1

theorem dictMinKeyByVal_mem {d : List (Nat × Nat)} {k : Nat}
    (h : dictMinKeyByVal d = some k) : k ∈ dictKeys d := by
  cases d with
  | nil => simp [dictMinKeyByVal] at h
  | cons kv rest =>
    simp only [dictMinKeyByVal, Option.some.injEq] at h
    rw [dictKeys_cons, List.mem_cons]
    rcases dictMinGo_mem rest kv with h1 | h1
    · left; rw [← h, h1]
    · right; rw [← h]; exact h1

theorem listMin_spec : ∀ {l : List Nat} {m : Nat},
    listMin l = some m → m ∈ l ∧ ∀ x ∈ l, m ≤ x := by
  intro l
  induction l with
  | nil => intro m h; simp [listMin] at h
  | cons x xs ih =>
    intro m h
    simp only [listMin] at h
    cases hxs : listMin xs with
    | none =>
      rw [hxs] at h
      cases xs with
      | nil =>
        simp at h
        constructor
        · simp [← h]
        · intro y hy; simp at hy; omega
      | cons a b => simp [listMin] at hxs; cases hxs2 : listMin b <;> simp [hxs2] at hxs
    | some m0 =>
      rw [hxs] at h
      simp at h
      obtain ⟨hmem, hle⟩ := ih hxs
      constructor
      · rcases Nat.le_total x m0 with hx | hx
        · simp [← h, min_eq_left hx]
        · right; rw [← h, min_eq_right hx]; exact hmem
      · intro y hy
        simp at hy
        rcases hy with hy | hy
        · rw [← h, hy]; exact min_le_left _ _
        · calc m ≤ m0 := by rw [← h]; exact min_le_right _ _
            _ ≤ y := hle y hy

theorem listMin_of_ne_nil {l : List Nat} (h : l ≠ []) : ∃ m, listMin l = some m := by
  cases l with
  | nil => exact absurd rfl h
  | cons x xs =>
    simp only [listMin]
    cases listMin xs with
    | none => exact ⟨x, rfl⟩
    | some m => exact ⟨min x m, rfl⟩

theorem countTrue_set_false : ∀ (l : List Bool) (i : Nat) (h : i < l.length),
    l.get ⟨i, h⟩ = true → countTrue (l.set i false) < countTrue l := by
  intro l
  induction l with
  | nil => intro i h; simp at h
  | cons b rest ih =>
    intro i h hget
    cases i with
    | zero =>
      simp only [List.get] at hget
      subst hget
      simp [List.set, countTrue]
    | succ j =>
      simp only [List.get] at hget
      have hj : j < rest.length := by simp at h; omega
      have := ih j hj hget
      simp [List.set, countTrue]
      omega

theorem nodup_filter_ne {l : List Nat} (a : Nat) (h : a ∉ l) :
    l.filter (fun x => x != a) = l := by
  induction l with
  | nil => rfl
  | cons x xs ih =>
    rw [List.mem_cons] at h
    push_neg at h
    have hx : (x != a) = true := by simp; exact fun he => h.1 he.symm
    simp only [List.filter, hx]
    rw [ih h.2]

theorem nodup_erase_eq_filter : ∀ (l : List Nat), l.Nodup → ∀ (a : Nat),
    l.erase a = l.filter (fun x => x != a) := by
  intro l
  induction l with
  | nil => intro _ a; rfl
  | cons x xs ih =>
    intro hnd a
    simp only [List.nodup_cons] at hnd
    by_cases hx : x = a
    · subst hx
      rw [List.erase_cons_head]
      simp only [List.filter, show (x != x) = false by simp]
      exact (nodup_filter_ne x hnd.1).symm
    · rw [List.erase_cons_tail (by simp [hx])]
      simp only [List.filter, show (x != a) = true by simp [hx]]
      rw [ih hnd.2 a]

/-! ### Step characterization shared by all six policies

Every policy step handles one trace element and falls in exactly one of
three cases: a hit (page resident), a fault into a full resident set
(one replacement), or a fault into a non-full resident set (no
replacement).  StepChar records the effect of one step on the memory
list and the three counters. -/

def StepChar (frames page : Nat) (mem mem' : List Nat)
    (f f' h h' r r' : Nat) : Prop :=
  if page ∈ mem then
    mem' = mem ∧ f' = f ∧ h' = h + 1 ∧ r' = r
  else if mem.length = frames then
    mem'.length = frames ∧ (frames = 1 → mem' = [page]) ∧
      f' = f + 1 ∧ h' = h ∧ r' = r + 1
  else
    mem' = mem ++ [page] ∧ f' = f + 1 ∧ h' = h ∧ r' = r

theorem stepChar_sum {frames page : Nat} {mem mem' : List Nat}
    {f f' h h' r r' : Nat}
    (hc : StepChar frames page mem mem' f f' h h' r r') :
    f' + h' = f + h + 1 := by
  unfold StepChar at hc
  split at hc
  · omega
  · split at hc <;> omega

theorem stepChar_len {frames page : Nat} {mem mem' : List Nat}
    {f f' h h' r r' : Nat}
    (hc : StepChar frames page mem mem' f f' h h' r r')
    (hlen : mem.length ≤ frames) : mem'.length ≤ frames := by
  unfold StepChar at hc
  split at hc
  · rw [hc.1]; exact hlen
  · split at hc
    · omega
    · rw [hc.1]
      simp only [List.length_append, List.length_cons, List.length_nil]
      omega

/-- Invariant of a run at frame capacity one: either no step has run yet,
or exactly one page is resident and each fault after the first one was a
replacement. -/
def OneInv (mem : List Nat) (f h r : Nat) : Prop :=
  (mem = [] ∧ f = 0 ∧ h = 0 ∧ r = 0) ∨ (∃ q, mem = [q] ∧ f = r + 1)

theorem stepChar_one {page : Nat} {mem mem' : List Nat}
    {f f' h h' r r' : Nat}
    (hc : StepChar 1 page mem mem' f f' h h' r r')
    (hI : OneInv mem f h r) :
    mem' = [page] ∧ OneInv mem' f' h' r' := by
  unfold StepChar at hc
  rcases hI with ⟨hm, hf, hh, hr⟩ | ⟨q, hm, hfr⟩
  · subst hm
    rw [if_neg (by simp)] at hc
    rw [if_neg (by simp)] at hc
    obtain ⟨hm', hf', hh', hr'⟩ := hc
    refine ⟨by simpa using hm', Or.inr ⟨page, by simpa using hm', by omega⟩⟩
  · subst hm
    by_cases hpq : page ∈ [q]
    · rw [if_pos hpq] at hc
      obtain ⟨hm', hf', hh', hr'⟩ := hc
      have hq : page = q := by simpa using hpq
      subst hq
      exact ⟨hm', Or.inr ⟨page, hm', by omega⟩⟩
    · rw [if_neg hpq, if_pos (by simp)] at hc
      obtain ⟨_, hm', hf', hh', hr'⟩ := hc
      have h1 := hm' rfl
      exact ⟨h1, Or.inr ⟨page, h1, by omega⟩⟩

/-! ### The shared simulate loop

FIFO, LFU, SimpleCLOCK and EnhancedCLOCK all use the same simulate loop:
for each page of the sequence run one step, then write the memory
snapshot to the file (here: append it to the log).  When a step raises,
the exception propagates immediately: the partial log and the object
state at the raise are what the caller observes.  LRU (which threads a
time counter) and OPT (which threads the remaining suffix) get their own
loops further down. -/

def pySimulate {σ : Type} (step : σ → Nat → Except (σ × String) σ)
    (mem : σ → List Nat) : σ → List Nat → σ × List (List Nat) × Option String
  | s, [] => (s, [], none)
  | s, page :: rest =>
    match step s page with
    | Except.ok s1 =>
      match pySimulate step mem s1 rest with
      | (sf, log, e) => (sf, mem s1 :: log, e)
    | Except.error (se, msg) => (se, [], some msg)

/-- Master lemma for the shared loop: when every step from an invariant
state succeeds and satisfies StepChar, a whole run succeeds, preserves
the invariant, counts one fault or hit per step, keeps every logged
snapshot within the frame bound, and at capacity one keeps exactly the
requested page resident after each step. -/
theorem pySimulate_ok {σ : Type} (step : σ → Nat → Except (σ × String) σ)
    (mem : σ → List Nat) (Inv : σ → Prop) (fr faults hits repl : σ → Nat)
    (hstep : ∀ s page, Inv s → ∃ s', step s page = Except.ok s' ∧ Inv s' ∧
      fr s' = fr s ∧ StepChar (fr s) page (mem s) (mem s')
        (faults s) (faults s') (hits s) (hits s') (repl s) (repl s'))
    (hlen : ∀ s, Inv s → (mem s).length ≤ fr s) :
    ∀ (trace : List Nat) (s : σ), Inv s →
      ∃ s' log, pySimulate step mem s trace = (s', log, none) ∧ Inv s' ∧
        fr s' = fr s ∧
        faults s' + hits s' = faults s + hits s + trace.length ∧
        (∀ m ∈ log, m.length ≤ fr s) ∧
        (fr s = 1 → OneInv (mem s) (faults s) (hits s) (repl s) →
          log = trace.map (fun p => [p]) ∧
            OneInv (mem s') (faults s') (hits s') (repl s')) := by
  intro trace
  induction trace with
  | nil =>
    intro s hI
    exact ⟨s, [], rfl, hI, rfl, by simp, by simp, fun _ h1 => ⟨rfl, h1⟩⟩
  | cons page rest ih =>
    intro s hI
    obtain ⟨s1, hs1, hI1, hfr1, hchar⟩ := hstep s page hI
    obtain ⟨s', log, hrun, hI', hfr', hsum, hlog, hone⟩ := ih s1 hI1
    refine ⟨s', mem s1 :: log, ?_, hI', by rw [hfr', hfr1], ?_, ?_, ?_⟩
    · simp only [pySimulate, hs1, hrun]
    · have := stepChar_sum hchar
      simp only [List.length_cons]
      omega
    · intro m hm
      rcases List.mem_cons.mp hm with hm | hm
      · subst hm
        have := hlen s1 hI1
        rw [hfr1] at this
        exact this
      · have := hlog m hm
        rw [hfr1] at this
        exact this
    · intro h1 hOne
      rw [h1] at hchar
      obtain ⟨hmem1, hOne1⟩ := stepChar_one hchar hOne
      obtain ⟨hlogeq, hOne'⟩ := hone (by rw [hfr1, h1]) hOne1
      exact ⟨by rw [List.map_cons, ← hmem1, hlogeq], hOne'⟩

/-! ### FIFO -/

structure FIFOState where
  frames : Nat
  memory : List Nat
  page_faults : Nat
  page_hits : Nat
  replacements : Nat
  queue : List Nat

def fifoInit (frames : Nat) : FIFOState :=
  { frames := frames, memory := [], page_faults := 0, page_hits := 0,
    replacements := 0, queue := [] }

/-- One iteration of FIFO.simulate for one requested page.  On a fault the
fault is recorded first, then, when memory is full, the head of the queue
is popped and removed from memory; popping an empty queue or removing an
absent page raises, carrying the object state mutated so far. -/
def fifoStep (s : FIFOState) (page : Nat) : Except (FIFOState × String) FIFOState :=
  if page ∉ s.memory then
    let s1 : FIFOState := { s with page_faults := s.page_faults + 1 }
    if s1.memory.length = s1.frames then
      match s1.queue with
      | [] => Except.error (s1, "IndexError: pop from empty list")
      | q :: qs =>
        match pyRemove s1.memory q with
        | none => Except.error ({ s1 with queue := qs },
            "ValueError: list.remove(x): x not in list")
        | some mem2 =>
          Except.ok { s1 with memory := mem2 ++ [page],
                              queue := qs ++ [page],
                              replacements := s1.replacements + 1 }
    else
      Except.ok { s1 with memory := s1.memory ++ [page], queue := s1.queue ++ [page] }
  else
    Except.ok { s with page_hits := s.page_hits + 1 }

def fifoSimulate : FIFOState → List Nat → FIFOState × List (List Nat) × Option String :=
  pySimulate fifoStep (fun s => s.memory)

/-- Reachable-state invariant of FIFO: positive capacity, the FIFO queue
mirrors the memory list, and memory is within capacity. -/
def FIFOInv (s : FIFOState) : Prop :=
  1 ≤ s.frames ∧ s.queue = s.memory ∧ s.memory.length ≤ s.frames

theorem fifoInit_inv {frames : Nat} (h : 1 ≤ frames) : FIFOInv (fifoInit frames) :=
  ⟨h, rfl, by simp [fifoInit]⟩

theorem fifoStep_ok (s : FIFOState) (page : Nat) (hI : FIFOInv s) :
    ∃ s', fifoStep s page = Except.ok s' ∧ FIFOInv s' ∧ s'.frames = s.frames ∧
      StepChar s.frames page s.memory s'.memory s.page_faults s'.page_faults
        s.page_hits s'.page_hits s.replacements s'.replacements := by
  obtain ⟨hfr, hq, hlen⟩ := hI
  by_cases hmem : page ∈ s.memory
  · refine ⟨{ s with page_hits := s.page_hits + 1 }, ?_, ⟨hfr, hq, hlen⟩, rfl, ?_⟩
    · simp [fifoStep, hmem]
    · simp [StepChar, hmem]
  · by_cases hfull : s.memory.length = s.frames
    · have hne : s.memory ≠ [] := by
        intro h0
        rw [h0] at hfull
        simp at hfull
        omega
      obtain ⟨m0, mrest, hm⟩ := List.exists_cons_of_ne_nil hne
      have hrm : pyRemove s.memory m0 = some mrest := by
        rw [hm, pyRemove_of_mem (by simp), List.erase_cons_head]
      refine ⟨{ s with page_faults := s.page_faults + 1,
                       memory := mrest ++ [page],
                       queue := mrest ++ [page],
                       replacements := s.replacements + 1 }, ?_, ?_, rfl, ?_⟩
      · simp only [fifoStep, if_pos hmem, hfull, if_pos rfl]
        rw [show ({ s with page_faults := s.page_faults + 1 } : FIFOState).queue
            = m0 :: mrest from hq.trans hm]
        simp only [hrm]
        rw [if_pos trivial]
      · refine ⟨hfr, rfl, ?_⟩
        have hml : s.memory.length = mrest.length + 1 := by rw [hm]; rfl
        simp only [List.length_append, List.length_cons, List.length_nil]
        omega
      · have hml : s.memory.length = mrest.length + 1 := by rw [hm]; rfl
        unfold StepChar
        rw [if_neg hmem, if_pos hfull]
        refine ⟨?_, ?_, rfl, rfl, rfl⟩
        · simp only [List.length_append, List.length_cons, List.length_nil]
          omega
        · intro h1
          have hz : mrest.length = 0 := by omega
          rw [List.length_eq_zero] at hz
          rw [hz]
          rfl
    · refine ⟨{ s with page_faults := s.page_faults + 1,
                       memory := s.memory ++ [page],
                       queue := s.queue ++ [page] }, ?_, ?_, rfl, ?_⟩
      · simp [fifoStep, hmem, hfull]
      · refine ⟨hfr, by rw [hq], ?_⟩
        simp only [List.length_append, List.length_cons, List.length_nil]
        omega
      · unfold StepChar
        rw [if_neg hmem, if_neg hfull]
        exact ⟨rfl, rfl, rfl, rfl⟩

/-! ### LRU -/

structure LRUState where
  frames : Nat
  memory : List Nat
  page_faults : Nat
  page_hits : Nat
  replacements : Nat
  page_time : List (Nat × Nat)

def lruInit (frames : Nat) : LRUState :=
  { frames := frames, memory := [], page_faults := 0, page_hits := 0,
    replacements := 0, page_time := [] }

/-- One iteration of LRU.simulate at logical time `time`.  On a fault with
full memory the key of page_time with the least last-access time is
evicted; min over an empty dict raises ValueError. -/
def lruStep (s : LRUState) (page time : Nat) : Except (LRUState × String) LRUState :=
  if page ∉ s.memory then
    let s1 : LRUState := { s with page_faults := s.page_faults + 1 }
    if s1.memory.length = s1.frames then
      match dictMinKeyByVal s1.page_time with
      | none => Except.error (s1, "ValueError: min() arg is an empty sequence")
      | some oldest =>
        match pyRemove s1.memory oldest with
        | none => Except.error (s1, "ValueError: list.remove(x): x not in list")
        | some mem2 =>
          Except.ok { s1 with memory := mem2 ++ [page],
                              page_time := dictSet (dictDel s1.page_time oldest) page time,
                              replacements := s1.replacements + 1 }
    else
      Except.ok { s1 with memory := s1.memory ++ [page],
                          page_time := dictSet s1.page_time page time }
  else
    Except.ok { s with page_hits := s.page_hits + 1,
                       page_time := dictSet s.page_time page time }

/-- LRU.simulate: the loop threads the local variable time, incremented
once per trace element. -/
def lruSimulate : LRUState → Nat → List Nat → LRUState × List (List Nat) × Option String
  | s, _, [] => (s, [], none)
  | s, time, page :: rest =>
    match lruStep s page time with
    | Except.ok s1 =>
      match lruSimulate s1 (time + 1) rest with
      | (sf, log, e) => (sf, s1.memory :: log, e)
    | Except.error (se, msg) => (se, [], some msg)

/-- Reachable-state invariant of LRU: positive capacity, distinct resident
pages, the keys of page_time are exactly the resident pages in order, and
memory is within capacity. -/
def LRUInv (s : LRUState) : Prop :=
  1 ≤ s.frames ∧ s.memory.Nodup ∧ dictKeys s.page_time = s.memory ∧
    s.memory.length ≤ s.frames

theorem lruInit_inv {frames : Nat} (h : 1 ≤ frames) : LRUInv (lruInit frames) :=
  ⟨h, List.nodup_nil, rfl, by simp [lruInit]⟩

theorem nodup_append_singleton {l : List Nat} {a : Nat}
    (hnd : l.Nodup) (ha : a ∉ l) : (l ++ [a]).Nodup := by
  rw [List.nodup_append]
  refine ⟨hnd, List.nodup_singleton a, ?_⟩
  intro x hx hxa
  rw [List.mem_singleton] at hxa
  subst hxa
  exact ha hx

theorem lruStep_ok (s : LRUState) (page time : Nat) (hI : LRUInv s) :
    ∃ s', lruStep s page time = Except.ok s' ∧ LRUInv s' ∧ s'.frames = s.frames ∧
      StepChar s.frames page s.memory s'.memory s.page_faults s'.page_faults
        s.page_hits s'.page_hits s.replacements s'.replacements := by
  obtain ⟨hfr, hnd, hk, hlen⟩ := hI
  by_cases hmem : page ∈ s.memory
  · refine ⟨{ s with page_hits := s.page_hits + 1,
                     page_time := dictSet s.page_time page time }, ?_, ?_, rfl, ?_⟩
    · simp [lruStep, hmem]
    · refine ⟨hfr, hnd, ?_, hlen⟩
      rw [dictKeys_set_of_mem time (by rw [hk]; exact hmem), hk]
    · simp [StepChar, hmem]
  · by_cases hfull : s.memory.length = s.frames
    · have hne : s.memory ≠ [] := by
        intro h0
        rw [h0] at hfull
        simp at hfull
        omega
      have hptne : s.page_time ≠ [] := by
        intro h0
        rw [h0] at hk
        exact hne hk.symm
      obtain ⟨kv, ptrest, hpt⟩ := List.exists_cons_of_ne_nil hptne
      have hmin : dictMinKeyByVal s.page_time = some (dictMinGo kv ptrest) := by
        rw [hpt]; rfl
      set oldest := dictMinGo kv ptrest with holdest
      have homem : oldest ∈ s.memory := by
        rw [← hk]
        exact dictMinKeyByVal_mem hmin
      have hrm : pyRemove s.memory oldest = some (s.memory.erase oldest) :=
        pyRemove_of_mem homem
      have herlen : (s.memory.erase oldest).length + 1 = s.memory.length := by
        rw [List.length_erase_of_mem homem]
        have : s.memory.length ≠ 0 := by
          intro h0
          exact hne (List.length_eq_zero.mp h0)
        omega
      have hpnotin : page ∉ s.memory.erase oldest :=
        fun hc => hmem (List.mem_of_mem_erase hc)
      refine ⟨{ s with page_faults := s.page_faults + 1,
                       memory := s.memory.erase oldest ++ [page],
                       page_time := dictSet (dictDel s.page_time oldest) page time,
                       replacements := s.replacements + 1 }, ?_, ?_, rfl, ?_⟩
      · simp only [lruStep, if_pos hmem, hfull, if_pos rfl, hmin, hrm]
        rw [if_pos trivial]
      · refine ⟨hfr, ?_, ?_, ?_⟩
        · exact nodup_append_singleton (hnd.erase oldest) hpnotin
        · have hkd : dictKeys (dictDel s.page_time oldest) = s.memory.erase oldest := by
            rw [dictKeys_del, hk, ← nodup_erase_eq_filter s.memory hnd]
          have hpnk : page ∉ dictKeys (dictDel s.page_time oldest) := by
            rw [hkd]; exact hpnotin
          rw [dictKeys_set_of_not_mem time hpnk, hkd]
        · simp only [List.length_append, List.length_cons, List.length_nil]
          omega
      · unfold StepChar
        rw [if_neg hmem, if_pos hfull]
        refine ⟨?_, ?_, rfl, rfl, rfl⟩
        · simp only [List.length_append, List.length_cons, List.length_nil]
          omega
        · intro h1
          have hz : (s.memory.erase oldest).length = 0 := by omega
          rw [List.length_eq_zero] at hz
          rw [hz]
          rfl
    · refine ⟨{ s with page_faults := s.page_faults + 1,
                       memory := s.memory ++ [page],
                       page_time := dictSet s.page_time page time }, ?_, ?_, rfl, ?_⟩
      · simp [lruStep, hmem, hfull]
      · refine ⟨hfr, nodup_append_singleton hnd hmem, ?_, ?_⟩
        · rw [dictKeys_set_of_not_mem time (by rw [hk]; exact hmem), hk]
        · simp only [List.length_append, List.length_cons, List.length_nil]
          omega
      · unfold StepChar
        rw [if_neg hmem, if_neg hfull]
        exact ⟨rfl, rfl, rfl, rfl⟩

/-- Run lemma for LRU, mirroring pySimulate_ok with the threaded time. -/
theorem lruSimulate_ok : ∀ (trace : List Nat) (s : LRUState) (time : Nat),
    LRUInv s →
    ∃ s' log, lruSimulate s time trace = (s', log, none) ∧ LRUInv s' ∧
      s'.frames = s.frames ∧
      s'.page_faults + s'.page_hits = s.page_faults + s.page_hits + trace.length ∧
      (∀ m ∈ log, m.length ≤ s.frames) ∧
      (s.frames = 1 → OneInv s.memory s.page_faults s.page_hits s.replacements →
        log = trace.map (fun p => [p]) ∧
          OneInv s'.memory s'.page_faults s'.page_hits s'.replacements) := by
  intro trace
  induction trace with
  | nil =>
    intro s time hI
    exact ⟨s, [], rfl, hI, rfl, by simp, by simp, fun _ h1 => ⟨rfl, h1⟩⟩
  | cons page rest ih =>
    intro s time hI
    obtain ⟨s1, hs1, hI1, hfr1, hchar⟩ := lruStep_ok s page time hI
    obtain ⟨s', log, hrun, hI', hfr', hsum, hlog, hone⟩ := ih s1 (time + 1) hI1
    refine ⟨s', s1.memory :: log, ?_, hI', by rw [hfr', hfr1], ?_, ?_, ?_⟩
    · simp only [lruSimulate, hs1, hrun]
    · have := stepChar_sum hchar
      simp only [List.length_cons]
      omega
    · intro m hm
      rcases List.mem_cons.mp hm with hm | hm
      · subst hm
        have := hI1.2.2.2
        rw [hfr1] at this
        exact this
      · have := hlog m hm
        rw [hfr1] at this
        exact this
    · intro h1 hOne
      rw [h1] at hchar
      obtain ⟨hmem1, hOne1⟩ := stepChar_one hchar hOne
      obtain ⟨hlogeq, hOne'⟩ := hone (by rw [hfr1, h1]) hOne1
      exact ⟨by rw [List.map_cons, ← hmem1, hlogeq], hOne'⟩

/-! ### OPT -/

structure OPTState where
  frames : Nat
  memory : List Nat
  page_faults : Nat
  page_hits : Nat
  replacements : Nat

def optInit (frames : Nat) : OPTState :=
  { frames := frames, memory := [], page_faults := 0, page_hits := 0,
    replacements := 0 }

/-- Loop of OPT.find_longest_unused_page: scan the resident pages in
order; return the first page absent from the future suffix immediately,
otherwise keep the page whose first future occurrence is strictly
farthest so far.  last starts at -1 so the first resident page found in
the future always replaces the initial none. -/
def findLongestGo : List Nat → List Nat → Int → Option Nat → Option Nat
  | [], _, _, best => best
  | p :: ps, future, last, best =>
    if p ∉ future then some p
    else
      if last < (future.indexOf p : Int) then
        findLongestGo ps future (future.indexOf p : Int) (some p)
      else
        findLongestGo ps future last best

/-- OPT.find_longest_unused_page(future): the victim among the resident
pages for the given future suffix, none when memory is empty. -/
def find_longest_unused_page (memory future : List Nat) : Option Nat :=
  findLongestGo memory future (-1) none

theorem findLongestGo_spec : ∀ (ms future : List Nat) (b : Nat), b ∈ future →
    ∃ p, findLongestGo ms future (future.indexOf b : Int) (some b) = some p ∧
      (p = b ∨ p ∈ ms) ∧
      (p ∉ future ∨
        (p ∈ future ∧ future.indexOf b ≤ future.indexOf p ∧
          ∀ q ∈ ms, q ∈ future ∧ future.indexOf q ≤ future.indexOf p)) := by
  intro ms
  induction ms with
  | nil =>
    intro future b hb
    refine ⟨b, rfl, Or.inl rfl, Or.inr ⟨hb, le_refl _, ?_⟩⟩
    intro q hq
    simp at hq
  | cons q ms ih =>
    intro future b hb
    by_cases hq : q ∈ future
    · simp only [findLongestGo]
      rw [if_neg (not_not_intro hq)]
      by_cases hcmp : (future.indexOf b : Int) < (future.indexOf q : Int)
      · rw [if_pos hcmp]
        obtain ⟨p, hgo, hmem, hspec⟩ := ih future q hq
        refine ⟨p, hgo, ?_, ?_⟩
        · rcases hmem with h | h
          · right; rw [List.mem_cons]; left; exact h
          · right; rw [List.mem_cons]; right; exact h
        · rcases hspec with h | ⟨hpf, hle, hall⟩
          · left; exact h
          · right
            have hbq : future.indexOf b ≤ future.indexOf q := by
              omega
            refine ⟨hpf, le_trans hbq hle, ?_⟩
            intro r hr
            rcases List.mem_cons.mp hr with hr | hr
            · subst hr; exact ⟨hq, hle⟩
            · exact hall r hr
      · rw [if_neg hcmp]
        obtain ⟨p, hgo, hmem, hspec⟩ := ih future b hb
        refine ⟨p, hgo, ?_, ?_⟩
        · rcases hmem with h | h
          · left; exact h
          · right; rw [List.mem_cons]; right; exact h
        · rcases hspec with h | ⟨hpf, hle, hall⟩
          · left; exact h
          · right
            have hqb : future.indexOf q ≤ future.indexOf b := by omega
            refine ⟨hpf, hle, ?_⟩
            intro r hr
            rcases List.mem_cons.mp hr with hr | hr
            · subst hr; exact ⟨hq, le_trans hqb hle⟩
            · exact hall r hr
    · exact ⟨q, by simp only [findLongestGo]; rw [if_pos hq],
        Or.inr (List.mem_cons_self q ms), Or.inl hq⟩

/-- Victim selection of OPT: the chosen victim is resident, and it is
either a resident page with no future occurrence, or, when every
resident page occurs in the future suffix, a resident page whose first
future occurrence is farthest. -/
theorem find_longest_spec (memory future : List Nat) (hne : memory ≠ []) :
    ∃ p, find_longest_unused_page memory future = some p ∧ p ∈ memory ∧
      (p ∉ future ∨
        (∀ q ∈ memory, q ∈ future ∧ future.indexOf q ≤ future.indexOf p)) := by
  obtain ⟨m0, ms, hm⟩ := List.exists_cons_of_ne_nil hne
  subst hm
  by_cases hm0 : m0 ∈ future
  · have hlt : (-1 : Int) < (future.indexOf m0 : Int) := by
      have : (0 : Int) ≤ (future.indexOf m0 : Int) := Int.ofNat_nonneg _
      omega
    obtain ⟨p, hgo, hmem, hspec⟩ := findLongestGo_spec ms future m0 hm0
    refine ⟨p, ?_, ?_, ?_⟩
    · simp only [find_longest_unused_page, findLongestGo]
      rw [if_neg (not_not_intro hm0), if_pos hlt]
      exact hgo
    · rcases hmem with h | h
      · rw [List.mem_cons]; left; exact h
      · rw [List.mem_cons]; right; exact h
    · rcases hspec with h | ⟨hpf, hle, hall⟩
      · left; exact h
      · right
        intro r hr
        rcases List.mem_cons.mp hr with hr | hr
        · subst hr; exact ⟨hm0, hle⟩
        · exact hall r hr
  · exact ⟨m0, by simp only [find_longest_unused_page, findLongestGo]; rw [if_pos hm0],
      List.mem_cons_self m0 ms, Or.inl hm0⟩

/-- One iteration of OPT.simulate with the remaining suffix of the trace
after the current element. -/
def optStep (s : OPTState) (page : Nat) (future : List Nat) :
    Except (OPTState × String) OPTState :=
  if page ∉ s.memory then
    let s1 : OPTState := { s with page_faults := s.page_faults + 1 }
    if s1.memory.length = s1.frames then
      match find_longest_unused_page s1.memory future with
      | none => Except.error (s1, "ValueError: list.remove(x): x not in list")
      | some victim =>
        match pyRemove s1.memory victim with
        | none => Except.error (s1, "ValueError: list.remove(x): x not in list")
        | some mem2 =>
          Except.ok { s1 with memory := mem2 ++ [page],
                              replacements := s1.replacements + 1 }
    else
      Except.ok { s1 with memory := s1.memory ++ [page] }
  else
    Except.ok { s with page_hits := s.page_hits + 1 }

/-- OPT.simulate: at index i the future suffix page_sequence[i+1:] is the
rest of the list after the current element. -/
def optSimulate : OPTState → List Nat → OPTState × List (List Nat) × Option String
  | s, [] => (s, [], none)
  | s, page :: rest =>
    match optStep s page rest with
    | Except.ok s1 =>
      match optSimulate s1 rest with
      | (sf, log, e) => (sf, s1.memory :: log, e)
    | Except.error (se, msg) => (se, [], some msg)

def OPTInv (s : OPTState) : Prop := 1 ≤ s.frames ∧ s.memory.length ≤ s.frames

theorem optInit_inv {frames : Nat} (h : 1 ≤ frames) : OPTInv (optInit frames) :=
  ⟨h, by simp [optInit]⟩

theorem optStep_ok (s : OPTState) (page : Nat) (future : List Nat) (hI : OPTInv s) :
    ∃ s', optStep s page future = Except.ok s' ∧ OPTInv s' ∧ s'.frames = s.frames ∧
      StepChar s.frames page s.memory s'.memory s.page_faults s'.page_faults
        s.page_hits s'.page_hits s.replacements s'.replacements := by
  obtain ⟨hfr, hlen⟩ := hI
  by_cases hmem : page ∈ s.memory
  · refine ⟨{ s with page_hits := s.page_hits + 1 }, ?_, ⟨hfr, hlen⟩, rfl, ?_⟩
    · simp [optStep, hmem]
    · simp [StepChar, hmem]
  · by_cases hfull : s.memory.length = s.frames
    · have hne : s.memory ≠ [] := by
        intro h0
        rw [h0] at hfull
        simp at hfull
        omega
      obtain ⟨victim, hfind, hvmem, _⟩ := find_longest_spec s.memory future hne
      have hrm : pyRemove s.memory victim = some (s.memory.erase victim) :=
        pyRemove_of_mem hvmem
      have herlen : (s.memory.erase victim).length + 1 = s.memory.length := by
        rw [List.length_erase_of_mem hvmem]
        have : s.memory.length ≠ 0 := by
          intro h0
          exact hne (List.length_eq_zero.mp h0)
        omega
      refine ⟨{ s with page_faults := s.page_faults + 1,
                       memory := s.memory.erase victim ++ [page],
                       replacements := s.replacements + 1 }, ?_, ?_, rfl, ?_⟩
      · simp only [optStep, if_pos hmem, hfull, if_pos rfl, hfind, hrm]
        rw [if_pos trivial]
      · refine ⟨hfr, ?_⟩
        simp only [List.length_append, List.length_cons, List.length_nil]
        omega
      · unfold StepChar
        rw [if_neg hmem, if_pos hfull]
        refine ⟨?_, ?_, rfl, rfl, rfl⟩
        · simp only [List.length_append, List.length_cons, List.length_nil]
          omega
        · intro h1
          have hz : (s.memory.erase victim).length = 0 := by omega
          rw [List.length_eq_zero] at hz
          rw [hz]
          rfl
    · refine ⟨{ s with page_faults := s.page_faults + 1,
                       memory := s.memory ++ [page] }, ?_, ?_, rfl, ?_⟩
      · simp [optStep, hmem, hfull]
      · refine ⟨hfr, ?_⟩
        simp only [List.length_append, List.length_cons, List.length_nil]
        omega
      · unfold StepChar
        rw [if_neg hmem, if_neg hfull]
        exact ⟨rfl, rfl, rfl, rfl⟩

/-- Run lemma for OPT, mirroring pySimulate_ok with the threaded suffix. -/
theorem optSimulate_ok : ∀ (trace : List Nat) (s : OPTState), OPTInv s →
    ∃ s' log, optSimulate s trace = (s', log, none) ∧ OPTInv s' ∧
      s'.frames = s.frames ∧
      s'.page_faults + s'.page_hits = s.page_faults + s.page_hits + trace.length ∧
      (∀ m ∈ log, m.length ≤ s.frames) ∧
      (s.frames = 1 → OneInv s.memory s.page_faults s.page_hits s.replacements →
        log = trace.map (fun p => [p]) ∧
          OneInv s'.memory s'.page_faults s'.page_hits s'.replacements) := by
  intro trace
  induction trace with
  | nil =>
    intro s hI
    exact ⟨s, [], rfl, hI, rfl, by simp, by simp, fun _ h1 => ⟨rfl, h1⟩⟩
  | cons page rest ih =>
    intro s hI
    obtain ⟨s1, hs1, hI1, hfr1, hchar⟩ := optStep_ok s page rest hI
    obtain ⟨s', log, hrun, hI', hfr', hsum, hlog, hone⟩ := ih s1 hI1
    refine ⟨s', s1.memory :: log, ?_, hI', by rw [hfr', hfr1], ?_, ?_, ?_⟩
    · simp only [optSimulate, hs1, hrun]
    · have := stepChar_sum hchar
      simp only [List.length_cons]
      omega
    · intro m hm
      rcases List.mem_cons.mp hm with hm | hm
      · subst hm
        have := hI1.2
        rw [hfr1] at this
        exact this
      · have := hlog m hm
        rw [hfr1] at this
        exact this
    · intro h1 hOne
      rw [h1] at hchar
      obtain ⟨hmem1, hOne1⟩ := stepChar_one hchar hOne
      obtain ⟨hlogeq, hOne'⟩ := hone (by rw [hfr1, h1]) hOne1
      exact ⟨by rw [List.map_cons, ← hmem1, hlogeq], hOne'⟩

/-! ### LFU -/

theorem dictGet_pair_of_nodup : ∀ (d : List (Nat × Nat)),
    (dictKeys d).Nodup → ∀ kv ∈ d, dictGet d kv.1 = some kv.2 := by
  intro d
  induction d with
  | nil => intro _ kv h; simp at h
  | cons hd rest ih =>
    intro hnd kv hkv
    rw [dictKeys_cons, List.nodup_cons] at hnd
    rcases List.mem_cons.mp hkv with h | h
    · subst h
      simp [dictGet]
    · have hne : hd.1 ≠ kv.1 := by
        intro he
        apply hnd.1
        rw [he]
        exact List.mem_map_of_mem Prod.fst h
      simp only [dictGet, if_neg hne]
      exact ih hnd.2 kv h

theorem pyFind_split {α : Type} : ∀ (l : List α) (p : α → Bool) (a : α),
    l.find? p = some a →
    ∃ pre post, l = pre ++ a :: post ∧ ∀ x ∈ pre, p x = false := by
  intro l
  induction l with
  | nil => intro p a h; simp [List.find?] at h
  | cons x xs ih =>
    intro p a h
    cases hp : p x with
    | true =>
      rw [List.find?_cons_of_pos _ hp] at h
      injection h with h
      subst h
      exact ⟨[], xs, rfl, by intro y hy; simp at hy⟩
    | false =>
      rw [List.find?_cons_of_neg _ (by simp [hp])] at h
      obtain ⟨pre, post, heq, hpre⟩ := ih p a h
      refine ⟨x :: pre, post, by rw [heq]; rfl, ?_⟩
      intro y hy
      rcases List.mem_cons.mp hy with hy | hy
      · subst hy; exact hp
      · exact hpre y hy

theorem pyFind_exists {α : Type} : ∀ (l : List α) (p : α → Bool),
    (∃ x ∈ l, p x = true) → ∃ a, l.find? p = some a ∧ p a = true ∧ a ∈ l := by
  intro l
  induction l with
  | nil => intro p h; obtain ⟨x, hx, _⟩ := h; simp at hx
  | cons y ys ih =>
    intro p h
    cases hp : p y with
    | true =>
      exact ⟨y, List.find?_cons_of_pos _ hp, hp, List.mem_cons_self y ys⟩
    | false =>
      obtain ⟨x, hx, hpx⟩ := h
      rcases List.mem_cons.mp hx with hx | hx
      · subst hx; rw [hp] at hpx; cases hpx
      · obtain ⟨a, ha, hpa, hamem⟩ := ih p ⟨x, hx, hpx⟩
        exact ⟨a, by rw [List.find?_cons_of_neg _ (by simp [hp])]; exact ha,
          hpa, List.mem_cons.mpr (Or.inr hamem)⟩

structure LFUState where
  frames : Nat
  memory : List Nat
  page_faults : Nat
  page_hits : Nat
  replacements : Nat
  page_frequency : List (Nat × Nat)

def lfuInit (frames : Nat) : LFUState :=
  { frames := frames, memory := [], page_faults := 0, page_hits := 0,
    replacements := 0, page_frequency := [] }

/-- LFU.find_least_frequent_page: take the least frequency value (min of
an empty dict raises ValueError), collect the keys holding it, and return
the first resident page, in current memory order, among them; the
implicit fall-through return of the Python loop is none. -/
def find_least_frequent_page (page_frequency : List (Nat × Nat))
    (memory : List Nat) : Except String (Option Nat) :=
  match listMin (dictValues page_frequency) with
  | none => Except.error "ValueError: min() arg is an empty sequence"
  | some least_used =>
    let least_frequent_pages := (dictKeys page_frequency).filter
      (fun p => dictGet page_frequency p == some least_used)
    Except.ok (memory.find? (fun p => least_frequent_pages.contains p))

/-- Victim selection of LFU: the chosen victim is resident, its frequency
is the least over the whole frequency dict, and no resident page before
it in memory order has the least frequency. -/
theorem find_least_spec (freq : List (Nat × Nat)) (memory : List Nat)
    (hkeys : dictKeys freq = memory) (hnd : memory.Nodup) (hne : memory ≠ []) :
    ∃ p least, find_least_frequent_page freq memory = Except.ok (some p) ∧
      p ∈ memory ∧ dictGet freq p = some least ∧
      (∀ kv ∈ freq, least ≤ kv.2) ∧
      ∃ pre post, memory = pre ++ p :: post ∧
        ∀ q ∈ pre, dictGet freq q ≠ some least := by
  have hfne : freq ≠ [] := by
    intro h0
    rw [h0] at hkeys
    exact hne hkeys.symm
  have hvne : dictValues freq ≠ [] := by
    intro h0
    apply hfne
    cases freq with
    | nil => rfl
    | cons kv r => simp [dictValues] at h0
  obtain ⟨least, hmin⟩ := listMin_of_ne_nil hvne
  obtain ⟨hlmem, hlle⟩ := listMin_spec hmin
  obtain ⟨kv, hkvmem, hkv2⟩ := List.mem_map.mp hlmem
  have hkndp : (dictKeys freq).Nodup := by rw [hkeys]; exact hnd
  have hget : dictGet freq kv.1 = some least := by
    rw [dictGet_pair_of_nodup freq hkndp kv hkvmem, hkv2]
  have hk1mem : kv.1 ∈ memory := by
    rw [← hkeys]
    exact List.mem_map_of_mem Prod.fst hkvmem
  have hk1lfp : kv.1 ∈ (dictKeys freq).filter
      (fun p => dictGet freq p == some least) := by
    rw [List.mem_filter]
    exact ⟨by rw [hkeys]; exact hk1mem, by rw [hget]; simp⟩
  obtain ⟨victim, hfind, hpv, hvmem⟩ := pyFind_exists memory
    (fun p => ((dictKeys freq).filter
      (fun p => dictGet freq p == some least)).contains p)
    ⟨kv.1, hk1mem, List.elem_eq_true_of_mem hk1lfp⟩
  have hvlfp : victim ∈ (dictKeys freq).filter
      (fun p => dictGet freq p == some least) :=
    List.mem_of_elem_eq_true hpv
  have hvget : dictGet freq victim = some least := by
    have := (List.mem_filter.mp hvlfp).2
    simpa using this
  obtain ⟨pre, post, hsplit, hpre⟩ := pyFind_split memory _ victim hfind
  refine ⟨victim, least, ?_, hvmem, hvget, ?_, pre, post, hsplit, ?_⟩
  · simp only [find_least_frequent_page, hmin, hfind]
  · intro kv2 hkv2mem
    exact hlle kv2.2 (List.mem_map_of_mem Prod.snd hkv2mem)
  · intro q hq
    intro hqget
    have hqmem : q ∈ dictKeys freq := dictGet_mem_keys hqget
    have hcf : ((dictKeys freq).filter
        (fun p => dictGet freq p == some least)).contains q = false := hpre q hq
    have hcm : q ∈ (dictKeys freq).filter
        (fun p => dictGet freq p == some least) := by
      rw [List.mem_filter]
      exact ⟨hqmem, by rw [hqget]; simp⟩
    exact Bool.noConfusion ((List.elem_eq_true_of_mem hcm).symm.trans hcf)

/-- One iteration of LFU.simulate: on a fault with full memory the least
frequent page is evicted and the incoming page starts at frequency one;
on a hit the frequency of the page is incremented. -/
def lfuStep (s : LFUState) (page : Nat) : Except (LFUState × String) LFUState :=
  if page ∉ s.memory then
    let s1 : LFUState := { s with page_faults := s.page_faults + 1 }
    if s1.memory.length = s1.frames then
      match find_least_frequent_page s1.page_frequency s1.memory with
      | Except.error msg => Except.error (s1, msg)
      | Except.ok none => Except.error (s1, "ValueError: list.remove(x): x not in list")
      | Except.ok (some victim) =>
        match pyRemove s1.memory victim with
        | none => Except.error (s1, "ValueError: list.remove(x): x not in list")
        | some mem2 =>
          Except.ok { s1 with memory := mem2 ++ [page],
                              page_frequency := dictSet (dictDel s1.page_frequency victim) page 1,
                              replacements := s1.replacements + 1 }
    else
      Except.ok { s1 with memory := s1.memory ++ [page],
                          page_frequency := dictSet s1.page_frequency page 1 }
  else
    match dictGet s.page_frequency page with
    | none => Except.error ({ s with page_hits := s.page_hits + 1 }, "KeyError")
    | some v =>
      Except.ok { s with page_hits := s.page_hits + 1,
                         page_frequency := dictSet s.page_frequency page (v + 1) }

def lfuSimulate : LFUState → List Nat → LFUState × List (List Nat) × Option String :=
  pySimulate lfuStep (fun s => s.memory)

/-- Reachable-state invariant of LFU: positive capacity, distinct resident
pages, the keys of page_frequency are exactly the resident pages in
order, and memory is within capacity. -/
def LFUInv (s : LFUState) : Prop :=
  1 ≤ s.frames ∧ s.memory.Nodup ∧ dictKeys s.page_frequency = s.memory ∧
    s.memory.length ≤ s.frames

theorem lfuInit_inv {frames : Nat} (h : 1 ≤ frames) : LFUInv (lfuInit frames) :=
  ⟨h, List.nodup_nil, rfl, by simp [lfuInit]⟩

theorem lfuStep_ok (s : LFUState) (page : Nat) (hI : LFUInv s) :
    ∃ s', lfuStep s page = Except.ok s' ∧ LFUInv s' ∧ s'.frames = s.frames ∧
      StepChar s.frames page s.memory s'.memory s.page_faults s'.page_faults
        s.page_hits s'.page_hits s.replacements s'.replacements := by
  obtain ⟨hfr, hnd, hk, hlen⟩ := hI
  by_cases hmem : page ∈ s.memory
  · obtain ⟨v, hv⟩ := dictGet_of_mem_keys (by rw [hk]; exact hmem)
    refine ⟨{ s with page_hits := s.page_hits + 1,
                     page_frequency := dictSet s.page_frequency page (v + 1) },
      ?_, ?_, rfl, ?_⟩
    · simp only [lfuStep, if_neg (not_not_intro hmem), hv]
    · refine ⟨hfr, hnd, ?_, hlen⟩
      rw [dictKeys_set_of_mem (v + 1) (by rw [hk]; exact hmem), hk]
    · simp [StepChar, hmem]
  · by_cases hfull : s.memory.length = s.frames
    · have hne : s.memory ≠ [] := by
        intro h0
        rw [h0] at hfull
        simp at hfull
        omega
      obtain ⟨victim, least, hfind, hvmem, _, _, _⟩ :=
        find_least_spec s.page_frequency s.memory hk hnd hne
      have hrm : pyRemove s.memory victim = some (s.memory.erase victim) :=
        pyRemove_of_mem hvmem
      have herlen : (s.memory.erase victim).length + 1 = s.memory.length := by
        rw [List.length_erase_of_mem hvmem]
        have : s.memory.length ≠ 0 := by
          intro h0
          exact hne (List.length_eq_zero.mp h0)
        omega
      have hpnotin : page ∉ s.memory.erase victim :=
        fun hc => hmem (List.mem_of_mem_erase hc)
      refine ⟨{ s with page_faults := s.page_faults + 1,
                       memory := s.memory.erase victim ++ [page],
                       page_frequency := dictSet (dictDel s.page_frequency victim) page 1,
                       replacements := s.replacements + 1 }, ?_, ?_, rfl, ?_⟩
      · simp only [lfuStep, if_pos hmem, hfull, if_pos rfl, hfind, hrm]
        rw [if_pos trivial]
      · refine ⟨hfr, ?_, ?_, ?_⟩
        · exact nodup_append_singleton (hnd.erase victim) hpnotin
        · have hkd : dictKeys (dictDel s.page_frequency victim)
              = s.memory.erase victim := by
            rw [dictKeys_del, hk, ← nodup_erase_eq_filter s.memory hnd]
          have hpnk : page ∉ dictKeys (dictDel s.page_frequency victim) := by
            rw [hkd]; exact hpnotin
          rw [dictKeys_set_of_not_mem 1 hpnk, hkd]
        · simp only [List.length_append, List.length_cons, List.length_nil]
          omega
      · unfold StepChar
        rw [if_neg hmem, if_pos hfull]
        refine ⟨?_, ?_, rfl, rfl, rfl⟩
        · simp only [List.length_append, List.length_cons, List.length_nil]
          omega
        · intro h1
          have hz : (s.memory.erase victim).length = 0 := by omega
          rw [List.length_eq_zero] at hz
          rw [hz]
          rfl
    · refine ⟨{ s with page_faults := s.page_faults + 1,
                       memory := s.memory ++ [page],
                       page_frequency := dictSet s.page_frequency page 1 }, ?_, ?_, rfl, ?_⟩
      · simp [lfuStep, hmem, hfull]
      · refine ⟨hfr, nodup_append_singleton hnd hmem, ?_, ?_⟩
        · rw [dictKeys_set_of_not_mem 1 (by rw [hk]; exact hmem), hk]
        · simp only [List.length_append, List.length_cons, List.length_nil]
          omega
      · unfold StepChar
        rw [if_neg hmem, if_neg hfull]
        exact ⟨rfl, rfl, rfl, rfl⟩

/-! ### SimpleCLOCK -/

structure SCLOCKState where
  frames : Nat
  memory : List Nat
  page_faults : Nat
  page_hits : Nat
  replacements : Nat
  use_bit : List Bool
  hand : Nat

/-- The use_bit dict with keys 0..frames-1 is a Bool list of length
frames; hand starts at slot 0. -/
def sclockInit (frames : Nat) : SCLOCKState :=
  { frames := frames, memory := [], page_faults := 0, page_hits := 0,
    replacements := 0, use_bit := List.replicate frames false, hand := 0 }

/-- The while loop of SimpleCLOCK.simulate: while the use bit under the
hand is set, clear it and advance the hand modulo frames.  Reading a slot
outside the table is the KeyError a dict read would raise (frames = 0).
Each continuing iteration clears one set bit, so countTrue plus one is
enough fuel and the fuel-exhaustion error is unreachable. -/
def clockSweep : Nat → List Bool → Nat → Nat → Except String (List Bool × Nat)
  | 0, _, _, _ => Except.error "sweep out of fuel"
  | fuel + 1, u, hand, frames =>
    if h : hand < u.length then
      if u.get ⟨hand, h⟩ then
        clockSweep fuel (u.set hand false) ((hand + 1) % frames) frames
      else
        Except.ok (u, hand)
    else
      Except.error "KeyError"

theorem clockSweep_ok : ∀ (fuel : Nat) (u : List Bool) (hand frames : Nat),
    u.length = frames → hand < frames → countTrue u < fuel →
    ∃ u' hand', clockSweep fuel u hand frames = Except.ok (u', hand') ∧
      u'.length = frames ∧ hand' < frames := by
  intro fuel
  induction fuel with
  | zero => intro u hand frames _ _ hf; omega
  | succ n ih =>
    intro u hand frames hlen hhand hf
    have h : hand < u.length := by omega
    simp only [clockSweep, dif_pos h]
    cases hget : u.get ⟨hand, h⟩ with
    | false => exact ⟨u, hand, by rw [if_neg (by simp [hget])], hlen, hhand⟩
    | true =>
      rw [if_pos rfl]
      have hct : countTrue (u.set hand false) < n :=
        lt_of_lt_of_le (countTrue_set_false u hand h hget) (by omega)
      have hlen2 : (u.set hand false).length = frames := by
        rw [List.length_set]; exact hlen
      have hhand2 : (hand + 1) % frames < frames := Nat.mod_lt _ (by omega)
      exact ih (u.set hand false) ((hand + 1) % frames) frames hlen2 hhand2 hct

/-- One iteration of SimpleCLOCK.simulate: on a fault sweep first, then
install at the hand (replacing when full, appending otherwise) and set
the use bit of the hand; on a hit set the use bit of the slot of the
page.  Assignments to use_bit stay below frames in every reachable
state, where the list update agrees with the dict assignment. -/
def sclockStep (s : SCLOCKState) (page : Nat) : Except (SCLOCKState × String) SCLOCKState :=
  if page ∉ s.memory then
    let s1 : SCLOCKState := { s with page_faults := s.page_faults + 1 }
    match clockSweep (countTrue s1.use_bit + 1) s1.use_bit s1.hand s1.frames with
    | Except.error msg => Except.error (s1, msg)
    | Except.ok (u, hand) =>
      let s2 : SCLOCKState := { s1 with use_bit := u, hand := hand }
      if s2.memory.length = s2.frames then
        if _hidx : hand < s2.memory.length then
          Except.ok { s2 with memory := s2.memory.set hand page,
                              replacements := s2.replacements + 1,
                              use_bit := u.set hand true }
        else
          Except.error (s2, "IndexError: list assignment index out of range")
      else
        Except.ok { s2 with memory := s2.memory ++ [page],
                            use_bit := u.set hand true }
  else
    let s1 : SCLOCKState := { s with page_hits := s.page_hits + 1 }
    match pyIndex s1.memory page with
    | none => Except.error (s1, "ValueError: x not in list")
    | some idx => Except.ok { s1 with use_bit := s1.use_bit.set idx true }

def sclockSimulate : SCLOCKState → List Nat → SCLOCKState × List (List Nat) × Option String :=
  pySimulate sclockStep (fun s => s.memory)

/-- Reachable-state invariant of SimpleCLOCK: positive capacity, one use
bit per frame, hand within the frame range, memory within capacity. -/
def SCLOCKInv (s : SCLOCKState) : Prop :=
  1 ≤ s.frames ∧ s.use_bit.length = s.frames ∧ s.hand < s.frames ∧
    s.memory.length ≤ s.frames

theorem sclockInit_inv {frames : Nat} (h : 1 ≤ frames) : SCLOCKInv (sclockInit frames) :=
  ⟨h, List.length_replicate _ _, by simpa [sclockInit] using h, by simp [sclockInit]⟩

theorem sclockStep_ok (s : SCLOCKState) (page : Nat) (hI : SCLOCKInv s) :
    ∃ s', sclockStep s page = Except.ok s' ∧ SCLOCKInv s' ∧ s'.frames = s.frames ∧
      StepChar s.frames page s.memory s'.memory s.page_faults s'.page_faults
        s.page_hits s'.page_hits s.replacements s'.replacements := by
  obtain ⟨hfr, hu, hh, hlen⟩ := hI
  by_cases hmem : page ∈ s.memory
  · have hidx : pyIndex s.memory page = some (s.memory.indexOf page) := by
      simp [pyIndex, hmem]
    refine ⟨{ s with page_hits := s.page_hits + 1,
                     use_bit := s.use_bit.set (s.memory.indexOf page) true },
      ?_, ?_, rfl, ?_⟩
    · simp only [sclockStep, if_neg (not_not_intro hmem), hidx]
    · exact ⟨hfr, by rw [List.length_set]; exact hu, hh, hlen⟩
    · simp [StepChar, hmem]
  · obtain ⟨u, hand, hsweep, hu2, hhand2⟩ := clockSweep_ok
      (countTrue s.use_bit + 1) s.use_bit s.hand s.frames hu hh (by omega)
    by_cases hfull : s.memory.length = s.frames
    · have hidx : hand < s.memory.length := by omega
      refine ⟨{ s with page_faults := s.page_faults + 1,
                       memory := s.memory.set hand page,
                       replacements := s.replacements + 1,
                       use_bit := u.set hand true,
                       hand := hand }, ?_, ?_, rfl, ?_⟩
      · simp only [sclockStep, if_pos hmem, hsweep]
        rw [if_pos hfull, dif_pos hidx]
      · exact ⟨hfr, by rw [List.length_set]; exact hu2, hhand2,
          by rw [List.length_set]; exact hlen⟩
      · unfold StepChar
        rw [if_neg hmem, if_pos hfull]
        refine ⟨by rw [List.length_set]; exact hfull, ?_, rfl, rfl, rfl⟩
        intro h1
        have hh0 : hand = 0 := by omega
        have hm1 : s.memory.length = 1 := by omega
        obtain ⟨q, hq⟩ : ∃ q, s.memory = [q] := by
          cases hm : s.memory with
          | nil => rw [hm] at hm1; simp at hm1
          | cons a l =>
            rw [hm] at hm1
            simp only [List.length_cons, Nat.add_left_eq_self,
              Nat.succ.injEq] at hm1
            have hl : l = [] := by
              rw [← List.length_eq_zero]
              omega
            exact ⟨a, by rw [hl]⟩
        rw [hq, hh0]
        rfl
    · refine ⟨{ s with page_faults := s.page_faults + 1,
                       memory := s.memory ++ [page],
                       use_bit := u.set hand true,
                       hand := hand }, ?_, ?_, rfl, ?_⟩
      · simp only [sclockStep, if_pos hmem, hsweep]
        rw [if_neg hfull]
      · refine ⟨hfr, by rw [List.length_set]; exact hu2, hhand2, ?_⟩
        simp only [List.length_append, List.length_cons, List.length_nil]
        omega
      · unfold StepChar
        rw [if_neg hmem, if_neg hfull]
        exact ⟨rfl, rfl, rfl, rfl⟩

/-! ### EnhancedCLOCK -/

structure ECLOCKState where
  frames : Nat
  memory : List Nat
  page_faults : Nat
  page_hits : Nat
  replacements : Nat
  use_bit : List Bool
  modify_bit : List Bool
  hand : Nat

def eclockInit (frames : Nat) : ECLOCKState :=
  { frames := frames, memory := [], page_faults := 0, page_hits := 0,
    replacements := 0, use_bit := List.replicate frames false,
    modify_bit := List.replicate frames false, hand := 0 }

/-- The while-not-replaced loop of EnhancedCLOCK.simulate.  When the slot
under the hand has use bit and modify bit both clear, the page is
installed there (replacing when memory is full, with an IndexError when
the hand is outside the memory list, appending otherwise), the modify
bit of the slot is reset, and the hand advances once more; otherwise the
use bit is cleared and the hand advances.  The returned Bool reports
whether the install replaced a resident page.  Reading a slot outside
the bit tables is the KeyError a dict read would raise (frames = 0).
When every modify bit is false, as in every state reachable from
eclockInit, each continuing iteration clears one set use bit, so
countTrue plus one is enough fuel; Python would loop forever in the
states the fuel error models. -/
def eclockLoop : Nat → Nat → Nat → List Nat → List Bool → List Bool → Nat →
    Except String (List Nat × List Bool × List Bool × Nat × Bool)
  | 0, _, _, _, _, _, _ => Except.error "loop out of fuel"
  | fuel + 1, frames, page, mem, u, m, hand =>
    if hu : hand < u.length then
      if hm : hand < m.length then
        if !(u.get ⟨hand, hu⟩) && !(m.get ⟨hand, hm⟩) then
          if mem.length = frames then
            if _hmm : hand < mem.length then
              Except.ok (mem.set hand page, u, m.set hand false,
                (hand + 1) % frames, true)
            else
              Except.error "IndexError: list assignment index out of range"
          else
            Except.ok (mem ++ [page], u, m.set hand false,
              (hand + 1) % frames, false)
        else
          eclockLoop fuel frames page mem (u.set hand false) m ((hand + 1) % frames)
      else
        Except.error "KeyError"
    else
      Except.error "KeyError"

theorem replicate_set_false : ∀ (n i : Nat),
    (List.replicate n false).set i false = List.replicate n false := by
  intro n
  induction n with
  | zero => intro i; rfl
  | succ k ih =>
    intro i
    cases i with
    | zero => rfl
    | succ j =>
      simp only [List.replicate, List.set]
      rw [ih j]

theorem replicate_get_false (n i : Nat) (h : i < (List.replicate n false).length) :
    (List.replicate n false).get ⟨i, h⟩ = false := by
  simp

theorem eclockLoop_ok : ∀ (fuel frames page : Nat) (mem : List Nat)
    (u : List Bool) (hand : Nat),
    u.length = frames → hand < frames → mem.length ≤ frames →
    countTrue u < fuel →
    ∃ mem' u' hand' didRepl,
      eclockLoop fuel frames page mem u (List.replicate frames false) hand =
        Except.ok (mem', u', List.replicate frames false, hand', didRepl) ∧
      u'.length = frames ∧ hand' < frames ∧
      ((mem.length = frames ∧ didRepl = true ∧ mem'.length = frames ∧
          (frames = 1 → mem' = [page])) ∨
        (mem.length ≠ frames ∧ didRepl = false ∧ mem' = mem ++ [page])) := by
  intro fuel
  induction fuel with
  | zero => intro frames page mem u hand _ _ _ hf; omega
  | succ n ih =>
    intro frames page mem u hand hlen hhand hmlen hf
    have hu : hand < u.length := by omega
    have hm : hand < (List.replicate frames false).length := by
      rw [List.length_replicate]; omega
    have hmget : (List.replicate frames false).get ⟨hand, hm⟩ = false :=
      replicate_get_false frames hand hm
    simp only [eclockLoop, dif_pos hu, dif_pos hm]
    cases hget : u.get ⟨hand, hu⟩ with
    | false =>
      rw [hmget]
      rw [if_pos (by simp)]
      rw [replicate_set_false]
      by_cases hfull : mem.length = frames
      · have hmm : hand < mem.length := by omega
        rw [if_pos hfull, dif_pos hmm]
        refine ⟨mem.set hand page, u, (hand + 1) % frames, true, rfl,
          hlen, Nat.mod_lt _ (by omega), Or.inl ⟨hfull, rfl, ?_, ?_⟩⟩
        · rw [List.length_set]; exact hfull
        · intro h1
          have hh0 : hand = 0 := by omega
          have hm1 : mem.length = 1 := by omega
          obtain ⟨q, hq⟩ : ∃ q, mem = [q] := by
            cases hmc : mem with
            | nil => rw [hmc] at hm1; simp at hm1
            | cons a l =>
              rw [hmc] at hm1
              simp only [List.length_cons] at hm1
              have hl : l = [] := by
                rw [← List.length_eq_zero]
                omega
              exact ⟨a, by rw [hl]⟩
          rw [hq, hh0]
          rfl
      · rw [if_neg hfull]
        exact ⟨mem ++ [page], u, (hand + 1) % frames, false, rfl, hlen,
          Nat.mod_lt _ (by omega), Or.inr ⟨hfull, rfl, rfl⟩⟩
    | true =>
      rw [hmget]
      rw [if_neg (by simp)]
      have hct : countTrue (u.set hand false) < n :=
        lt_of_lt_of_le (countTrue_set_false u hand hu hget) (by omega)
      exact ih frames page mem (u.set hand false) ((hand + 1) % frames)
        (by rw [List.length_set]; exact hlen) (Nat.mod_lt _ (by omega)) hmlen hct

/-- One iteration of EnhancedCLOCK.simulate: on a fault run the install
loop, add its replacement flag to the counter, and set the use bit of
the slot now under the hand, which the loop has already advanced past
the installed slot; on a hit set the use bit of the slot of the page. -/
def eclockStep (s : ECLOCKState) (page : Nat) : Except (ECLOCKState × String) ECLOCKState :=
  if page ∉ s.memory then
    let s1 : ECLOCKState := { s with page_faults := s.page_faults + 1 }
    match eclockLoop (countTrue s1.use_bit + 1) s1.frames page s1.memory
        s1.use_bit s1.modify_bit s1.hand with
    | Except.error msg => Except.error (s1, msg)
    | Except.ok (mem2, u2, m2, hand2, didRepl) =>
      let s2 : ECLOCKState := { s1 with memory := mem2, use_bit := u2,
                                        modify_bit := m2, hand := hand2,
                                        replacements :=
                                          s1.replacements + (if didRepl then 1 else 0) }
      Except.ok { s2 with use_bit := s2.use_bit.set hand2 true }
  else
    let s1 : ECLOCKState := { s with page_hits := s.page_hits + 1 }
    match pyIndex s1.memory page with
    | none => Except.error (s1, "ValueError: x not in list")
    | some idx => Except.ok { s1 with use_bit := s1.use_bit.set idx true }

def eclockSimulate : ECLOCKState → List Nat → ECLOCKState × List (List Nat) × Option String :=
  pySimulate eclockStep (fun s => s.memory)

/-- Reachable-state invariant of EnhancedCLOCK: positive capacity, one
use bit and one modify bit per frame, hand within range, memory within
capacity, and every modify bit still false: no simulated access ever
writes, so no assignment in the class ever sets a modify bit. -/
def ECLOCKInv (s : ECLOCKState) : Prop :=
  1 ≤ s.frames ∧ s.use_bit.length = s.frames ∧
    s.modify_bit = List.replicate s.frames false ∧ s.hand < s.frames ∧
    s.memory.length ≤ s.frames

theorem eclockInit_inv {frames : Nat} (h : 1 ≤ frames) : ECLOCKInv (eclockInit frames) :=
  ⟨h, List.length_replicate _ _, rfl, by simpa [eclockInit] using h,
    by simp [eclockInit]⟩

theorem eclockStep_ok (s : ECLOCKState) (page : Nat) (hI : ECLOCKInv s) :
    ∃ s', eclockStep s page = Except.ok s' ∧ ECLOCKInv s' ∧ s'.frames = s.frames ∧
      StepChar s.frames page s.memory s'.memory s.page_faults s'.page_faults
        s.page_hits s'.page_hits s.replacements s'.replacements := by
  obtain ⟨hfr, hu, hmb, hh, hlen⟩ := hI
  by_cases hmem : page ∈ s.memory
  · have hidx : pyIndex s.memory page = some (s.memory.indexOf page) := by
      simp [pyIndex, hmem]
    refine ⟨{ s with page_hits := s.page_hits + 1,
                     use_bit := s.use_bit.set (s.memory.indexOf page) true },
      ?_, ?_, rfl, ?_⟩
    · simp only [eclockStep, if_neg (not_not_intro hmem), hidx]
    · exact ⟨hfr, by rw [List.length_set]; exact hu, hmb, hh, hlen⟩
    · simp [StepChar, hmem]
  · obtain ⟨mem2, u2, hand2, didRepl, hloop, hu2, hhand2, hcase⟩ :=
      eclockLoop_ok (countTrue s.use_bit + 1) s.frames page s.memory s.use_bit
        s.hand hu hh hlen (by omega)
    refine ⟨{ s with page_faults := s.page_faults + 1,
                     memory := mem2,
                     use_bit := u2.set hand2 true,
                     modify_bit := List.replicate s.frames false,
                     hand := hand2,
                     replacements := s.replacements + (if didRepl then 1 else 0) },
      ?_, ?_, rfl, ?_⟩
    · simp only [eclockStep, if_pos hmem, hmb, hloop]
    · refine ⟨hfr, by rw [List.length_set]; exact hu2, rfl, hhand2, ?_⟩
      rcases hcase with ⟨_, _, hml, _⟩ | ⟨hnfull2, _, hmeq⟩
      · show mem2.length ≤ s.frames
        omega
      · show mem2.length ≤ s.frames
        rw [hmeq]
        simp only [List.length_append, List.length_cons, List.length_nil]
        omega
    · unfold StepChar
      rw [if_neg hmem]
      rcases hcase with ⟨hfull, hdr, hml, hone⟩ | ⟨hnfull, hdr, hmeq⟩
      · rw [if_pos hfull]
        subst hdr
        exact ⟨hml, hone, rfl, rfl, by simp⟩
      · rw [if_neg hnfull]
        subst hdr
        exact ⟨hmeq, rfl, rfl, by simp⟩

/-! ### The six policies behind one front end

The GUI and the aggregator instantiate one of the six classes with a
frame count and call simulate on a trace.  runAlg packages a whole run:
the final counters and memory of the object, the per-step snapshot log
written to the file, and the exception propagated to the caller, if
any. -/

inductive Alg
  | fifo
  | lru
  | opt
  | lfu
  | sclock
  | eclock
deriving DecidableEq

def algName : Alg → String
  | Alg.fifo => "FIFO"
  | Alg.lru => "LRU"
  | Alg.opt => "OPT"
  | Alg.lfu => "LFU"
  | Alg.sclock => "SimpleCLOCK"
  | Alg.eclock => "EnhancedCLOCK"

structure RunResult where
  memory : List Nat
  page_faults : Nat
  page_hits : Nat
  replacements : Nat
  log : List (List Nat)
  error : Option String

def runAlg (a : Alg) (frames : Nat) (trace : List Nat) : RunResult :=
  match a with
  | Alg.fifo =>
    match fifoSimulate (fifoInit frames) trace with
    | (s, log, e) => ⟨s.memory, s.page_faults, s.page_hits, s.replacements, log, e⟩
  | Alg.lru =>
    match lruSimulate (lruInit frames) 0 trace with
    | (s, log, e) => ⟨s.memory, s.page_faults, s.page_hits, s.replacements, log, e⟩
  | Alg.opt =>
    match optSimulate (optInit frames) trace with
    | (s, log, e) => ⟨s.memory, s.page_faults, s.page_hits, s.replacements, log, e⟩
  | Alg.lfu =>
    match lfuSimulate (lfuInit frames) trace with
    | (s, log, e) => ⟨s.memory, s.page_faults, s.page_hits, s.replacements, log, e⟩
  | Alg.sclock =>
    match sclockSimulate (sclockInit frames) trace with
    | (s, log, e) => ⟨s.memory, s.page_faults, s.page_hits, s.replacements, log, e⟩
  | Alg.eclock =>
    match eclockSimulate (eclockInit frames) trace with
    | (s, log, e) => ⟨s.memory, s.page_faults, s.page_hits, s.replacements, log, e⟩

/-! ### The aggregator test_page_replacement_algorithms

The function initializes results as a dict mapping each algorithm name
to an empty list, then for every frame count and every algorithm runs a
fresh instance and executes
results[name].__getitem__ with the string key
page_fault_rates before appending.  Because results[name] is a list,
not a dict, that subscript raises TypeError on the very first pair; the
rate is never computed and nothing is ever appended.  An exception from
simulate itself would propagate first. -/

/-- Inner loop body over the algorithm list for one frame count: the
first iteration either propagates the error of simulate or raises the
TypeError of the list subscript, so later iterations are unreachable. -/
def testLoopAlgs (page_sequence : List Nat) (frames : Nat) : List Alg → Option String
  | [] => none
  | a :: _rest =>
    match (runAlg a frames page_sequence).error with
    | some e => some e
    | none => some "TypeError: list indices must be integers or slices, not str"

/-- Outer loop over the frame counts. -/
def testLoopFrames (algorithms : List Alg) (page_sequence : List Nat) :
    List Nat → Option String
  | [] => none
  | f :: rest =>
    match testLoopAlgs page_sequence f algorithms with
    | some e => some e
    | none => testLoopFrames algorithms page_sequence rest

/-- test_page_replacement_algorithms(algorithms, page_sequence,
frame_counts, file): returns the results dict only when the loops never
run; otherwise the first iteration raises and the exception propagates
to the caller.  The value type of the dict is the never-populated empty
list keyed by algorithm name. -/
def test_page_replacement_algorithms (algorithms : List Alg)
    (page_sequence : List Nat) (frame_counts : List Nat) :
    Except String (List (String × List Nat)) :=
  let results := algorithms.map (fun a => (algName a, ([] : List Nat)))
  match testLoopFrames algorithms page_sequence frame_counts with
  | some e => Except.error e
  | none => Except.ok results

/-! ### Whole-run facts common to the six policies -/

/-- Every run with at least one frame completes without an exception,
counts one fault or hit per trace element, never logs a snapshot above
the capacity, and at capacity one holds exactly the requested page after
each step. -/
theorem runAlg_ok (a : Alg) (frames : Nat) (trace : List Nat) (hf : 1 ≤ frames) :
    (runAlg a frames trace).error = none ∧
    (runAlg a frames trace).page_faults + (runAlg a frames trace).page_hits
      = trace.length ∧
    (∀ m ∈ (runAlg a frames trace).log, m.length ≤ frames) ∧
    (frames = 1 →
      (runAlg a frames trace).log = trace.map (fun p => [p]) ∧
      OneInv (runAlg a frames trace).memory (runAlg a frames trace).page_faults
        (runAlg a frames trace).page_hits (runAlg a frames trace).replacements) := by
  cases a with
  | fifo =>
    obtain ⟨s', log, hrun, hI', hfr', hsum, hlog, hone⟩ :=
      pySimulate_ok fifoStep (fun s => s.memory) FIFOInv (fun s => s.frames)
        (fun s => s.page_faults) (fun s => s.page_hits) (fun s => s.replacements)
        (fun s page hI => fifoStep_ok s page hI) (fun s hI => hI.2.2)
        trace (fifoInit frames) (fifoInit_inv hf)
    have hrun2 : fifoSimulate (fifoInit frames) trace = (s', log, none) := hrun
    simp only [runAlg, hrun2]
    refine ⟨by trivial, by simpa [fifoInit] using hsum, hlog, ?_⟩
    intro h1
    exact hone h1 (Or.inl ⟨rfl, rfl, rfl, rfl⟩)
  | lru =>
    obtain ⟨s', log, hrun, hI', hfr', hsum, hlog, hone⟩ :=
      lruSimulate_ok trace (lruInit frames) 0 (lruInit_inv hf)
    simp only [runAlg, hrun]
    refine ⟨by trivial, by simpa [lruInit] using hsum, hlog, ?_⟩
    intro h1
    exact hone h1 (Or.inl ⟨rfl, rfl, rfl, rfl⟩)
  | opt =>
    obtain ⟨s', log, hrun, hI', hfr', hsum, hlog, hone⟩ :=
      optSimulate_ok trace (optInit frames) (optInit_inv hf)
    simp only [runAlg, hrun]
    refine ⟨by trivial, by simpa [optInit] using hsum, hlog, ?_⟩
    intro h1
    exact hone h1 (Or.inl ⟨rfl, rfl, rfl, rfl⟩)
  | lfu =>
    obtain ⟨s', log, hrun, hI', hfr', hsum, hlog, hone⟩ :=
      pySimulate_ok lfuStep (fun s => s.memory) LFUInv (fun s => s.frames)
        (fun s => s.page_faults) (fun s => s.page_hits) (fun s => s.replacements)
        (fun s page hI => lfuStep_ok s page hI) (fun s hI => hI.2.2.2)
        trace (lfuInit frames) (lfuInit_inv hf)
    have hrun2 : lfuSimulate (lfuInit frames) trace = (s', log, none) := hrun
    simp only [runAlg, hrun2]
    refine ⟨by trivial, by simpa [lfuInit] using hsum, hlog, ?_⟩
    intro h1
    exact hone h1 (Or.inl ⟨rfl, rfl, rfl, rfl⟩)
  | sclock =>
    obtain ⟨s', log, hrun, hI', hfr', hsum, hlog, hone⟩ :=
      pySimulate_ok sclockStep (fun s => s.memory) SCLOCKInv (fun s => s.frames)
        (fun s => s.page_faults) (fun s => s.page_hits) (fun s => s.replacements)
        (fun s page hI => sclockStep_ok s page hI) (fun s hI => hI.2.2.2)
        trace (sclockInit frames) (sclockInit_inv hf)
    have hrun2 : sclockSimulate (sclockInit frames) trace = (s', log, none) := hrun
    simp only [runAlg, hrun2]
    refine ⟨by trivial, by simpa [sclockInit] using hsum, hlog, ?_⟩
    intro h1
    exact hone h1 (Or.inl ⟨rfl, rfl, rfl, rfl⟩)
  | eclock =>
    obtain ⟨s', log, hrun, hI', hfr', hsum, hlog, hone⟩ :=
      pySimulate_ok eclockStep (fun s => s.memory) ECLOCKInv (fun s => s.frames)
        (fun s => s.page_faults) (fun s => s.page_hits) (fun s => s.replacements)
        (fun s page hI => eclockStep_ok s page hI) (fun s hI => hI.2.2.2.2)
        trace (eclockInit frames) (eclockInit_inv hf)
    have hrun2 : eclockSimulate (eclockInit frames) trace = (s', log, none) := hrun
    simp only [runAlg, hrun2]
    refine ⟨by trivial, by simpa [eclockInit] using hsum, hlog, ?_⟩
    intro h1
    exact hone h1 (Or.inl ⟨rfl, rfl, rfl, rfl⟩)

/-! ### Claims -/

/-- Claim C1: the aggregator is supposed to return, for non-empty inputs,
a mapping of rates per (policy, frame count) pair.  The code cannot: it
initializes results[name] as a list and then subscripts that list with
the string key page_fault_rates, which raises TypeError on the first
pair, before any rate is computed, contradicting its own docstring; the
main block reimplements the aggregation correctly inline.  At the
failing input ([FIFO], [1], [1]) the embedded aggregator raises exactly
that TypeError. -/
theorem claim_C1_aggregator_raises :
    test_page_replacement_algorithms [Alg.fifo] [1] [1] =
      Except.error "TypeError: list indices must be integers or slices, not str" := rfl

/-- Claim C2 counterexample: FIFO with frame_count 0 and trace [1] is not
rejected before simulation; the run starts, records the page fault, and
only then raises IndexError from popping the empty queue, so the object
the caller keeps already counts one fault. -/
theorem claim_C2_counterexample :
    (runAlg Alg.fifo 0 [1]).error = some "IndexError: pop from empty list" ∧
    (runAlg Alg.fifo 0 [1]).page_faults = 1 ∧
    (runAlg Alg.fifo 0 [1]).page_hits = 0 := ⟨rfl, rfl, rfl⟩

/-- Claim C2 amended: no validation exists.  A run with frame_count of at
least one never fails; an empty trace is not rejected and completes with
zero steps for every frame count; with frame_count 0 and a non-empty
trace the run begins and fails mid-run at the first fault, after the
fault was recorded. -/
theorem claim_C2_amended :
    (∀ (a : Alg) (frames : Nat) (trace : List Nat), 1 ≤ frames →
      (runAlg a frames trace).error = none) ∧
    (∀ (a : Alg) (frames : Nat), (runAlg a frames []).error = none ∧
      (runAlg a frames []).page_faults = 0 ∧ (runAlg a frames []).page_hits = 0) ∧
    ((runAlg Alg.fifo 0 [1]).error ≠ none ∧ (runAlg Alg.fifo 0 [1]).page_faults = 1) := by
  refine ⟨?_, ?_, by decide⟩
  · intro a frames trace hf
    exact (runAlg_ok a frames trace hf).1
  · intro a frames
    cases a <;> exact ⟨rfl, rfl, rfl⟩

theorem claim_C2_witness :
    1 ≤ 2 ∧ (runAlg Alg.lru 2 [1, 2, 1]).error = none :=
  ⟨by decide, claim_C2_amended.1 Alg.lru 2 [1, 2, 1] (by decide)⟩

/-- Claim C3 counterexample: on the trace [1,2,3,4,1,...] with three
frames, after the first five steps both LRU and FIFO count five faults
and zero hits, so the fifth reference (page 1) is a fault under LRU, not
a hit, and its outcome does not differ from FIFO at that step. -/
theorem claim_C3_counterexample :
    (runAlg Alg.lru 3 [1, 2, 3, 4, 1]).page_hits = 0 ∧
    (runAlg Alg.lru 3 [1, 2, 3, 4, 1]).page_faults = 5 ∧
    (runAlg Alg.fifo 3 [1, 2, 3, 4, 1]).page_hits = 0 ∧
    (runAlg Alg.fifo 3 [1, 2, 3, 4, 1]).page_faults = 5 := ⟨rfl, rfl, rfl, rfl⟩

/-- Claim C3 amended: at three frames LRU evicts page 1 at step 4 (the
resident set becomes [2,3,4]), so the reference to page 1 at step 5 is a
fault, the same outcome as FIFO at that step; the two policies still
diverge on the full trace, with ten LRU faults against nine FIFO
faults. -/
theorem claim_C3_amended :
    (runAlg Alg.lru 3 [1, 2, 3, 4]).memory = [2, 3, 4] ∧
    (runAlg Alg.lru 3 [1, 2, 3, 4, 1]).page_faults = 5 ∧
    (runAlg Alg.lru 3 [1, 2, 3, 4, 1]).page_hits = 0 ∧
    (runAlg Alg.fifo 3 [1, 2, 3, 4, 1]).page_faults = 5 ∧
    (runAlg Alg.fifo 3 [1, 2, 3, 4, 1]).page_hits = 0 ∧
    (runAlg Alg.lru 3 [1, 2, 3, 4, 1, 2, 5, 1, 2, 3, 4, 5]).page_faults = 10 ∧
    (runAlg Alg.fifo 3 [1, 2, 3, 4, 1, 2, 5, 1, 2, 3, 4, 5]).page_faults = 9 :=
  ⟨rfl, rfl, rfl, rfl, rfl, rfl, rfl⟩

/-- Claim C4 counterexample: SimpleCLOCK and EnhancedCLOCK are not
behaviorally identical: on trace [1,2,3,1] with two frames their
resident sets diverge at step 4, because EnhancedCLOCK advances the hand
past the installed slot before setting the use bit. -/
theorem claim_C4_counterexample :
    (runAlg Alg.sclock 2 [1, 2, 3, 1]).memory = [3, 1] ∧
    (runAlg Alg.eclock 2 [1, 2, 3, 1]).memory = [1, 2] ∧
    (runAlg Alg.sclock 2 [1, 2, 3, 1]).memory ≠
      (runAlg Alg.eclock 2 [1, 2, 3, 1]).memory := ⟨rfl, rfl, by decide⟩

/-- Claim C4 amended: the modify bit of EnhancedCLOCK is indeed never set
during any simulation (after every prefix of every run the modify bits
are all false), but EnhancedCLOCK is not behaviorally identical to
SimpleCLOCK: the resident sets diverge, for example on trace [1,2,3,1]
with two frames. -/
theorem claim_C4_amended :
    (∀ (frames : Nat) (trace : List Nat) (n : Nat), 1 ≤ frames →
      ∃ s log, eclockSimulate (eclockInit frames) (trace.take n) = (s, log, none) ∧
        s.modify_bit = List.replicate frames false) ∧
    (runAlg Alg.sclock 2 [1, 2, 3, 1]).memory ≠
      (runAlg Alg.eclock 2 [1, 2, 3, 1]).memory := by
  refine ⟨?_, by decide⟩
  intro frames trace n hf
  obtain ⟨s', log, hrun, hI', hfr', _, _, _⟩ :=
    pySimulate_ok eclockStep (fun s => s.memory) ECLOCKInv (fun s => s.frames)
      (fun s => s.page_faults) (fun s => s.page_hits) (fun s => s.replacements)
      (fun s page hI => eclockStep_ok s page hI) (fun s hI => hI.2.2.2.2)
      (trace.take n) (eclockInit frames) (eclockInit_inv hf)
  have hrun2 : eclockSimulate (eclockInit frames) (trace.take n) = (s', log, none) := hrun
  refine ⟨s', log, hrun2, ?_⟩
  have hmb := hI'.2.2.1
  have hfr2 : s'.frames = frames := hfr'
  rw [hmb, hfr2]

theorem claim_C4_witness :
    1 ≤ 1 ∧ (∃ s log, eclockSimulate (eclockInit 1) ([1].take 1) = (s, log, none) ∧
      s.modify_bit = List.replicate 1 false) :=
  ⟨by decide, claim_C4_amended.1 1 [1] 1 (by decide)⟩

/-- Claim C5: for every one of the six policies, every trace, and every
frame count of at least one, simulate completes and the final counters
satisfy page_faults + page_hits = length of the trace. -/
theorem claim_C5_fault_hit_sum (a : Alg) (frames : Nat) (trace : List Nat)
    (hf : 1 ≤ frames) :
    (runAlg a frames trace).error = none ∧
    (runAlg a frames trace).page_faults + (runAlg a frames trace).page_hits
      = trace.length :=
  ⟨(runAlg_ok a frames trace hf).1, (runAlg_ok a frames trace hf).2.1⟩

theorem claim_C5_witness :
    1 ≤ 3 ∧ ((runAlg Alg.opt 3 [1, 2, 1]).error = none ∧
      (runAlg Alg.opt 3 [1, 2, 1]).page_faults +
        (runAlg Alg.opt 3 [1, 2, 1]).page_hits = [1, 2, 1].length) :=
  ⟨by decide, claim_C5_fault_hit_sum Alg.opt 3 [1, 2, 1] (by decide)⟩

/-- Claim C6: for every one of the six policies, every trace, and every
frame count of at least one, the resident set never holds more than
frame_count pages at any step: every memory snapshot written to the step
log is within the capacity. -/
theorem claim_C6_capacity_bound (a : Alg) (frames : Nat) (trace : List Nat)
    (hf : 1 ≤ frames) :
    ∀ m ∈ (runAlg a frames trace).log, m.length ≤ frames :=
  (runAlg_ok a frames trace hf).2.2.1

theorem claim_C6_witness :
    1 ≤ 2 ∧ [3, 2] ∈ (runAlg Alg.sclock 2 [1, 2, 3]).log ∧
      ([3, 2] : List Nat).length ≤ 2 :=
  ⟨by decide, by decide,
    claim_C6_capacity_bound Alg.sclock 2 [1, 2, 3] (by decide) [3, 2] (by decide)⟩

/-- Claim C7: for every one of the six policies at frame count one, on a
non-empty trace every step leaves exactly the requested page resident
(every fault on a differing page evicts the sole resident page), and at
the end replacement count plus one equals fault count: the first fault
fills the empty slot without eviction. -/
theorem claim_C7_single_frame (a : Alg) (trace : List Nat) (hne : trace ≠ []) :
    (runAlg a 1 trace).error = none ∧
    (runAlg a 1 trace).log = trace.map (fun p => [p]) ∧
    (runAlg a 1 trace).replacements + 1 = (runAlg a 1 trace).page_faults := by
  obtain ⟨herr, hsum, _, hone⟩ := runAlg_ok a 1 trace (le_refl 1)
  obtain ⟨hlogeq, hOne⟩ := hone rfl
  refine ⟨herr, hlogeq, ?_⟩
  rcases hOne with ⟨_, hf0, hh0, _⟩ | ⟨q, _, hfr⟩
  · exfalso
    rw [hf0, hh0] at hsum
    have : trace.length ≠ 0 := fun h0 => hne (List.length_eq_zero.mp h0)
    omega
  · omega

theorem claim_C7_witness :
    ([2, 7, 7] : List Nat) ≠ [] ∧
    ((runAlg Alg.eclock 1 [2, 7, 7]).error = none ∧
      (runAlg Alg.eclock 1 [2, 7, 7]).log = [2, 7, 7].map (fun p => [p]) ∧
      (runAlg Alg.eclock 1 [2, 7, 7]).replacements + 1 =
        (runAlg Alg.eclock 1 [2, 7, 7]).page_faults) :=
  ⟨by decide, claim_C7_single_frame Alg.eclock [2, 7, 7] (by decide)⟩

/-- Claim C8: at every OPT fault with a full resident set the victim
returned by find_longest_unused_page is a resident page, and it is
either a resident page with no occurrence in the remaining suffix, which
wins over any page that does occur, or, when every resident page occurs
in the suffix, a resident page whose next occurrence is farthest away. -/
theorem claim_C8_opt_victim (memory future : List Nat) (hne : memory ≠ []) :
    ∃ p, find_longest_unused_page memory future = some p ∧ p ∈ memory ∧
      (p ∉ future ∨
        (∀ q ∈ memory, q ∈ future ∧ future.indexOf q ≤ future.indexOf p)) :=
  find_longest_spec memory future hne

theorem claim_C8_witness :
    ([1, 2] : List Nat) ≠ [] ∧
    (∃ p, find_longest_unused_page [1, 2] [2] = some p ∧ p ∈ ([1, 2] : List Nat) ∧
      (p ∉ ([2] : List Nat) ∨
        (∀ q ∈ ([1, 2] : List Nat), q ∈ ([2] : List Nat) ∧
          List.indexOf q [2] ≤ List.indexOf p [2]))) :=
  ⟨by decide, claim_C8_opt_victim [1, 2] [2] (by decide)⟩

/-- Claim C9: at every LFU fault with a full resident set the victim
returned by find_least_frequent_page is a resident page whose frequency
counter is the least over the whole frequency dict, and among resident
pages tied at that least frequency the victim is the first one in the
current memory scan order: no resident page before it carries the least
frequency. -/
theorem claim_C9_lfu_victim (freq : List (Nat × Nat)) (memory : List Nat)
    (hkeys : dictKeys freq = memory) (hnd : memory.Nodup) (hne : memory ≠ []) :
    ∃ p least, find_least_frequent_page freq memory = Except.ok (some p) ∧
      p ∈ memory ∧ dictGet freq p = some least ∧
      (∀ kv ∈ freq, least ≤ kv.2) ∧
      ∃ pre post, memory = pre ++ p :: post ∧
        ∀ q ∈ pre, dictGet freq q ≠ some least :=
  find_least_spec freq memory hkeys hnd hne

theorem claim_C9_witness :
    dictKeys [(1, 2), (2, 1)] = [1, 2] ∧ ([1, 2] : List Nat).Nodup ∧
    ([1, 2] : List Nat) ≠ [] ∧
    (∃ p least, find_least_frequent_page [(1, 2), (2, 1)] [1, 2] =
        Except.ok (some p) ∧
      p ∈ ([1, 2] : List Nat) ∧ dictGet [(1, 2), (2, 1)] p = some least ∧
      (∀ kv ∈ ([(1, 2), (2, 1)] : List (Nat × Nat)), least ≤ kv.2) ∧
      ∃ pre post, ([1, 2] : List Nat) = pre ++ p :: post ∧
        ∀ q ∈ pre, dictGet [(1, 2), (2, 1)] q ≠ some least) :=
  ⟨by decide, by decide, by decide,
    claim_C9_lfu_victim [(1, 2), (2, 1)] [1, 2] (by decide) (by decide) (by decide)⟩

/-- Claim C10: for every one of the six policies, a step whose requested
page is resident leaves the memory list, the fault count, and the
replacement count unchanged and increments only the hit count, besides
policy bookkeeping (the LRU timestamp, the LFU frequency after its dict
read succeeds, the clock use bits). -/
theorem claim_C10_hit_frame_effect :
    (∀ (s : FIFOState) (page : Nat), page ∈ s.memory →
      ∃ s', fifoStep s page = Except.ok s' ∧ s'.memory = s.memory ∧
        s'.page_faults = s.page_faults ∧ s'.replacements = s.replacements ∧
        s'.page_hits = s.page_hits + 1) ∧
    (∀ (s : LRUState) (page time : Nat), page ∈ s.memory →
      ∃ s', lruStep s page time = Except.ok s' ∧ s'.memory = s.memory ∧
        s'.page_faults = s.page_faults ∧ s'.replacements = s.replacements ∧
        s'.page_hits = s.page_hits + 1) ∧
    (∀ (s : OPTState) (page : Nat) (future : List Nat), page ∈ s.memory →
      ∃ s', optStep s page future = Except.ok s' ∧ s'.memory = s.memory ∧
        s'.page_faults = s.page_faults ∧ s'.replacements = s.replacements ∧
        s'.page_hits = s.page_hits + 1) ∧
    (∀ (s : LFUState) (page : Nat), page ∈ s.memory →
      page ∈ dictKeys s.page_frequency →
      ∃ s', lfuStep s page = Except.ok s' ∧ s'.memory = s.memory ∧
        s'.page_faults = s.page_faults ∧ s'.replacements = s.replacements ∧
        s'.page_hits = s.page_hits + 1) ∧
    (∀ (s : SCLOCKState) (page : Nat), page ∈ s.memory →
      ∃ s', sclockStep s page = Except.ok s' ∧ s'.memory = s.memory ∧
        s'.page_faults = s.page_faults ∧ s'.replacements = s.replacements ∧
        s'.page_hits = s.page_hits + 1) ∧
    (∀ (s : ECLOCKState) (page : Nat), page ∈ s.memory →
      ∃ s', eclockStep s page = Except.ok s' ∧ s'.memory = s.memory ∧
        s'.page_faults = s.page_faults ∧ s'.replacements = s.replacements ∧
        s'.page_hits = s.page_hits + 1) := by
  refine ⟨?_, ?_, ?_, ?_, ?_, ?_⟩
  · intro s page hmem
    exact ⟨{ s with page_hits := s.page_hits + 1 },
      by simp [fifoStep, hmem], rfl, rfl, rfl, rfl⟩
  · intro s page time hmem
    exact ⟨{ s with page_hits := s.page_hits + 1,
                    page_time := dictSet s.page_time page time },
      by simp [lruStep, hmem], rfl, rfl, rfl, rfl⟩
  · intro s page future hmem
    exact ⟨{ s with page_hits := s.page_hits + 1 },
      by simp [optStep, hmem], rfl, rfl, rfl, rfl⟩
  · intro s page hmem hk
    obtain ⟨v, hv⟩ := dictGet_of_mem_keys hk
    exact ⟨{ s with page_hits := s.page_hits + 1,
                    page_frequency := dictSet s.page_frequency page (v + 1) },
      by simp only [lfuStep, if_neg (not_not_intro hmem), hv], rfl, rfl, rfl, rfl⟩
  · intro s page hmem
    have hidx : pyIndex s.memory page = some (s.memory.indexOf page) := by
      simp [pyIndex, hmem]
    exact ⟨{ s with page_hits := s.page_hits + 1,
                    use_bit := s.use_bit.set (s.memory.indexOf page) true },
      by simp only [sclockStep, if_neg (not_not_intro hmem), hidx],
      rfl, rfl, rfl, rfl⟩
  · intro s page hmem
    have hidx : pyIndex s.memory page = some (s.memory.indexOf page) := by
      simp [pyIndex, hmem]
    exact ⟨{ s with page_hits := s.page_hits + 1,
                    use_bit := s.use_bit.set (s.memory.indexOf page) true },
      by simp only [eclockStep, if_neg (not_not_intro hmem), hidx],
      rfl, rfl, rfl, rfl⟩

theorem claim_C10_witness :
    (5 ∈ (⟨2, [5], 0, 0, 0, [5]⟩ : FIFOState).memory ∧
      ∃ s', fifoStep ⟨2, [5], 0, 0, 0, [5]⟩ 5 = Except.ok s' ∧
        s'.memory = (⟨2, [5], 0, 0, 0, [5]⟩ : FIFOState).memory ∧
        s'.page_faults = 0 ∧ s'.replacements = 0 ∧ s'.page_hits = 0 + 1) ∧
    (5 ∈ (⟨2, [5], 0, 0, 0, [(5, 0)]⟩ : LRUState).memory ∧
      ∃ s', lruStep ⟨2, [5], 0, 0, 0, [(5, 0)]⟩ 5 3 = Except.ok s' ∧
        s'.memory = (⟨2, [5], 0, 0, 0, [(5, 0)]⟩ : LRUState).memory ∧
        s'.page_faults = 0 ∧ s'.replacements = 0 ∧ s'.page_hits = 0 + 1) ∧
    (5 ∈ (⟨2, [5], 0, 0, 0⟩ : OPTState).memory ∧
      ∃ s', optStep ⟨2, [5], 0, 0, 0⟩ 5 [7] = Except.ok s' ∧
        s'.memory = (⟨2, [5], 0, 0, 0⟩ : OPTState).memory ∧
        s'.page_faults = 0 ∧ s'.replacements = 0 ∧ s'.page_hits = 0 + 1) ∧
    (5 ∈ (⟨2, [5], 0, 0, 0, [(5, 1)]⟩ : LFUState).memory ∧
      ∃ s', lfuStep ⟨2, [5], 0, 0, 0, [(5, 1)]⟩ 5 = Except.ok s' ∧
        s'.memory = (⟨2, [5], 0, 0, 0, [(5, 1)]⟩ : LFUState).memory ∧
        s'.page_faults = 0 ∧ s'.replacements = 0 ∧ s'.page_hits = 0 + 1) ∧
    (5 ∈ (⟨2, [5], 0, 0, 0, [true, false], 0⟩ : SCLOCKState).memory ∧
      ∃ s', sclockStep ⟨2, [5], 0, 0, 0, [true, false], 0⟩ 5 = Except.ok s' ∧
        s'.memory = (⟨2, [5], 0, 0, 0, [true, false], 0⟩ : SCLOCKState).memory ∧
        s'.page_faults = 0 ∧ s'.replacements = 0 ∧ s'.page_hits = 0 + 1) ∧
    (5 ∈ (⟨2, [5], 0, 0, 0, [true, false], [false, false], 0⟩ : ECLOCKState).memory ∧
      ∃ s', eclockStep ⟨2, [5], 0, 0, 0, [true, false], [false, false], 0⟩ 5 =
          Except.ok s' ∧
        s'.memory = (⟨2, [5], 0, 0, 0, [true, false], [false, false], 0⟩ :
          ECLOCKState).memory ∧
        s'.page_faults = 0 ∧ s'.replacements = 0 ∧ s'.page_hits = 0 + 1) := by
  refine ⟨⟨by decide, ?_⟩, ⟨by decide, ?_⟩, ⟨by decide, ?_⟩, ⟨by decide, ?_⟩,
    ⟨by decide, ?_⟩, ⟨by decide, ?_⟩⟩
  · exact claim_C10_hit_frame_effect.1 ⟨2, [5], 0, 0, 0, [5]⟩ 5 (by decide)
  · exact claim_C10_hit_frame_effect.2.1 ⟨2, [5], 0, 0, 0, [(5, 0)]⟩ 5 3 (by decide)
  · exact claim_C10_hit_frame_effect.2.2.1 ⟨2, [5], 0, 0, 0⟩ 5 [7] (by decide)
  · exact claim_C10_hit_frame_effect.2.2.2.1 ⟨2, [5], 0, 0, 0, [(5, 1)]⟩ 5
      (by decide) (by decide)
  · exact claim_C10_hit_frame_effect.2.2.2.2.1 ⟨2, [5], 0, 0, 0, [true, false], 0⟩ 5
      (by decide)
  · exact claim_C10_hit_frame_effect.2.2.2.2.2 ⟨2, [5], 0, 0, 0, [true, false],
      [false, false], 0⟩ 5 (by decide)
